import Mathlib

/-!
Verification of the molecular-simulation data pipeline.

This file gives a shallow embedding, in Lean 4, of the core algorithms of the
repository:

* `output-processing/pipe-network-processor.py` — signal compression, peak-time
  normalization and the per-run feature/label extraction (`process_run_folder`);
* `output-processing/receiver-data-compressor.py` — the window-sum compressor
  (`compress_data`);
* `data-generation/tree-ring-yaml-generator.py` — slot addressing and the
  breadth-first tree builder with sinks, receivers and a single emitter;
* `data-generation/yaml-generator.py` — the random recursive-tree generator and
  its radius-proportional flow distribution.

Modelling conventions, used throughout:

* Python floats are modelled by `ℚ`; the claims under scrutiny are about exact
  structural facts (clamping, conservation, proportional splits), none of which
  hinges on rounding.
* Randomness is passed in as explicit oracle streams (one function per kind of
  draw), mirroring the sequential draws of the source.  `random.randint(a, b)`
  is modelled by a stream valued in the corresponding range.
* Receiver time series are the parsed integer lists (the source parses a comma
  separated line with `int(..)`; the observed counts are non-negative).
* Pipe names `f"pipe{slot}"` are modelled by the slot number itself (the map
  `s ↦ "pipe" ++ toString s` is injective, so name collisions and slot
  collisions coincide); sink names `f"sink{k}"` live in a separate constructor
  of the `NName` type, mirroring the disjoint string namespaces.
-/

namespace MolSim

/-! ## String and number parsing helpers (Python `int`, `float`, `str.replace`) -/

/-- Numeric value of a digit list, most significant first. -/

def digitsToNat (cs : List Char) : Nat :=
  cs.foldl (fun n c => n * 10 + (c.toNat - '0'.toNat)) 0

/-- Parse a non-empty all-digit character list, as Python `int` does after sign
stripping. -/
def pyNatDigits? (cs : List Char) : Option Nat :=
  if cs ≠ [] ∧ cs.all Char.isDigit then some (digitsToNat cs) else none

/-- Model of Python `int(s)`: optional sign followed by digits; `none` models a
raised `ValueError`. -/
def pyInt? (s : String) : Option Int :=
  match s.data with
  | '-' :: rest => (pyNatDigits? rest).map (fun n => -(n : Int))
  | '+' :: rest => (pyNatDigits? rest).map (fun n => (n : Int))
  | cs => (pyNatDigits? cs).map (fun n => (n : Int))

/-- Split a character list at its first `'.'`, if any. -/
def splitOnDot : List Char → (List Char × Option (List Char))
  | [] => ([], none)
  | c :: rest =>
    if c = '.' then ([], some rest)
    else
      let (ip, fp) := splitOnDot rest
      (c :: ip, fp)

/-- Model of Python `float(s)` on plain decimal literals: optional sign, digits,
optional fractional part.  (Exponent notation is outside the inputs exercised
here; any unparsable string maps to `none`, modelling a raised `ValueError`.) -/
def pyFloat? (s : String) : Option ℚ :=
  let signed : Int × List Char :=
    match s.data with
    | '-' :: r => (-1, r)
    | '+' :: r => (1, r)
    | r => (1, r)
  match splitOnDot signed.2 with
  | (ip, none) => (pyNatDigits? ip).map (fun n => (signed.1 : ℚ) * n)
  | (ip, some fp) =>
    if (ip ≠ [] ∨ fp ≠ []) ∧ ip.all Char.isDigit ∧ fp.all Char.isDigit then
      some ((signed.1 : ℚ) * (digitsToNat ip + (digitsToNat fp : ℚ) / 10 ^ fp.length))
    else none

/-- Fuel-based worker for `replaceAll`; the fuel only forces structural
termination and is always instantiated with the length of the list, which the
recursion never exhausts (each step removes at least one character). -/
def replaceAllGo (pat rep : List Char) : Nat → List Char → List Char
  | _, [] => []
  | 0, cs => cs
  | fuel + 1, c :: rest =>
    if pat ≠ [] ∧ pat.isPrefixOf (c :: rest) then
      rep ++ replaceAllGo pat rep fuel ((c :: rest).drop pat.length)
    else
      c :: replaceAllGo pat rep fuel rest

/-- Replace every (non-overlapping, leftmost-first) occurrence of the non-empty
pattern `pat` in `s`, as Python `str.replace` does. -/
def replaceAll (pat rep cs : List Char) : List Char :=
  replaceAllGo pat rep cs.length cs

/-- Python `s.replace(pat, rep)` for a non-empty pattern. -/
def strReplace (s pat rep : String) : String :=
  ⟨replaceAll pat.data rep.data s.data⟩

/-- Does `pre` occur as a prefix of `s`?  (Python `str.startswith`.) -/
def strStartsWith (s pre : String) : Bool :=
  pre.data.isPrefixOf s.data

/-- Does `suf` occur as a suffix of `s`?  (Python `str.endswith`.) -/
def strEndsWith (s suf : String) : Bool :=
  suf.data.isSuffixOf s.data

/-- Does `pat` occur as a contiguous subsequence of `cs`? -/
def containsSeq (pat : List Char) : List Char → Bool
  | [] => pat.isPrefixOf ([] : List Char)
  | c :: rest => pat.isPrefixOf (c :: rest) || containsSeq pat rest

/-! ## SignalCompressor

`compress_time_series` (pipe-network-processor.py, lines 37–43) sums each
contiguous window of `factor` elements, the trailing partial window as-is.
`get_t_peak_normalized` (lines 45–52) is the normalized first-argmax index.
`compress_data` (receiver-data-compressor.py, lines 17–35) is the counter-based
variant that only appends the final group `if current_sum > 0`. -/

/-- Fuel-based worker for `compress_time_series`: each step consumes a window
of `factor ≥ 1` elements, so fuel `ts.length` is never exhausted. -/
def ctsGo : Nat → List Nat → Nat → List Nat
  | 0, _, _ => []
  | fuel + 1, ts, factor =>
    if ts = [] ∨ factor = 0 then []
    else (ts.take factor).sum :: ctsGo fuel (ts.drop factor) factor

/-- `compress_time_series(time_series, factor)`: sum every window of `factor`
elements (`for i in range(0, len, factor): append(sum(ts[i:i+factor]))`).
For `factor = 0` Python's `range` raises `ValueError`; we return `[]` there
(all claims assume a window of at least 1). -/
def compress_time_series (ts : List Nat) (factor : Nat) : List Nat :=
  ctsGo ts.length ts factor

/-- Scan for the first maximum: `bi`/`bv` are the best index and value so far,
`i` the index of the head of the remaining list. -/
def argmaxGo (bi bv i : Nat) : List Nat → Nat
  | [] => bi
  | x :: rest => if bv < x then argmaxGo i x (i + 1) rest else argmaxGo bi bv (i + 1) rest

/-- Index of the first maximum of a list (`np.argmax`); 0 on the empty list
(the source only applies it to non-empty lists).  Starting from best value 0 is
correct over `Nat`: if the head exceeds 0 it wins at index 0, and otherwise the
tie at value 0 keeps index 0, the first occurrence. -/
def argmaxList (ts : List Nat) : Nat :=
  argmaxGo 0 0 0 ts

/-- `get_t_peak_normalized(time_series)`: 0 if the list is empty or its maximum
is 0, else `argmax / len` (the `if t_total > 0` guard of the source is
subsumed: the list is non-empty on that branch). -/
def get_t_peak_normalized (ts : List Nat) : ℚ :=
  if ts = [] ∨ ts.foldr max 0 = 0 then 0
  else if 0 < ts.length then (argmaxList ts : ℚ) / (ts.length : ℚ)
  else 0

/-- The accumulator loop of `compress_data`: state is
(`counter`, `current_sum`, `new_counters`); after the loop the last group is
appended only `if current_sum > 0`. -/
def compress_data_go (rate : Nat) (counter current_sum : Nat) (acc : List Nat) :
    List Nat → List Nat
  | [] => if 0 < current_sum then acc ++ [current_sum] else acc
  | x :: rest =>
    if counter % rate = 0 ∧ counter ≠ 0 then
      compress_data_go rate (counter + 1) (0 + x) (acc ++ [current_sum]) rest
    else
      compress_data_go rate (counter + 1) (current_sum + x) acc rest

/-- `compress_data(arr, compression_rate)` of receiver-data-compressor.py.
(For `rate = 0` Python raises `ZeroDivisionError` on `counter % rate`; the
claims only concern `rate ≥ 1`.) -/
def compress_data (arr : List Nat) (rate : Nat) : List Nat :=
  compress_data_go rate 0 0 [] arr

/-- Drop the last element of a list when that element is zero; `compress_data`
relates to `compress_time_series` through this operation. -/
def dropLastIfZero (l : List Nat) : List Nat :=
  if l.getLast? = some 0 then l.dropLast else l

/-! ## SlotAddressing (tree-ring-yaml-generator.py, lines 46–48)

`slot_id(level, branch_idx) = (B**level - 1) // (B - 1) + branch_idx`. -/

/-- `slot_id` of the generator, with Python's floor division (which on these
non-negative operands is `Nat` division). -/
def slot_id (B level branch_idx : Nat) : Nat :=
  (B ^ level - 1) / (B - 1) + branch_idx

/-- Number of nodes of a complete `B`-ary tree above depth `d`, i.e. the first
slot at depth `d`: `∑ B^i for i < d`, in recursive form. -/
def sdepth (B : Nat) : Nat → Nat
  | 0 => 0
  | d + 1 => sdepth B d * B + 1

/-- Decode a slot back to its depth: the first `d` with `slot < sdepth B (d+1)`.
The fuel `slot + 1` always suffices since `sdepth B (d+1) > d`. -/
def decodeDepthAux (B slot : Nat) : Nat → Nat → Nat
  | 0, d => d
  | fuel + 1, d => if slot < slot_id B (d + 1) 0 then d else decodeDepthAux B slot fuel (d + 1)

/-- Depth recovered from a slot under the addressing scheme of §4.1. -/
def decodeDepth (B slot : Nat) : Nat :=
  decodeDepthAux B slot (slot + 1) 0

/-! ## RunReconstructor / TensorEncoder (pipe-network-processor.py, lines 54–249)

A run directory is a list of sub-directories; each carries the first line of
its `simulation_data.txt` (split on whitespace, `none` when the file is
missing) and its receiver files.  Receiver files carry their file name, their
first line, and the parsed integer time series of their third line. -/

/-- `MAX_DEPTH` global of pipe-network-processor.py. -/
def MAX_DEPTH : Nat := 5

/-- `MAX_CHILDREN` global of pipe-network-processor.py. -/
def MAX_CHILDREN : Nat := 4

/-- `sum(MAX_CHILDREN**i for i in range(MAX_DEPTH+1))`, the default
`max_pipes` (1365). -/
def defaultMaxPipes : Nat :=
  ((List.range (MAX_DEPTH + 1)).map (fun i => MAX_CHILDREN ^ i)).sum

/-- One row of the feature tensor: `[length_norm, radius_norm, depth_norm,
num_children_norm, has_receiver, t_peak, mask]` (columns 0–6). -/
structure FRow where
  lengthN : ℚ
  radiusN : ℚ
  depthN : ℚ
  childrenN : ℚ
  hasReceiver : ℚ
  tPeak : ℚ
  mask : ℚ
deriving DecidableEq, Repr

/-- `np.ones(7)`: the sentinel fill row of an empty slot. -/
def sentinelRow : FRow := ⟨1, 1, 1, 1, 1, 1, 1⟩

/-- A receiver output file inside a pipe directory: its file name, its first
line, and the integer time series of its third line. -/
structure RecFile where
  fname : String
  firstLine : String
  series : List Nat
deriving DecidableEq, Repr

/-- A sub-directory of a run directory. -/
structure PipeFolder where
  dirname : String
  simData : Option (List String)
  receivers : List RecFile
deriving DecidableEq, Repr

/-- A run directory: its sub-directories (in `os.listdir` order) and the
whitespace-split content of `targetOutput.txt` (`none` when missing). -/
structure RunFolder where
  folders : List PipeFolder
  target : Option (List String)
deriving DecidableEq, Repr

/-- The glob pattern `#*Ring*.txt`: leading `#`, trailing `.txt`, and `Ring`
somewhere in between. -/
def globRing (fname : String) : Bool :=
  strStartsWith fname "#" && strEndsWith fname ".txt" &&
    containsSeq "Ring".data ((fname.data.drop 1).take (fname.data.length - 5))

/-- The parent-walk loop of `process_run_folder` (lines 128–155): follow parent
references until hitting the sentinel `"-1"` or an already visited name,
incrementing `depth` once per visited node.  The walk can visit each distinct
name at most once and every name it can reach is either the starting name, the
starting record's parent field, `"-1"`, or a parent field stored in one of the
run's directories, so fuel `folders.length + 2` is never exhausted. -/
def walkAux (folders : List PipeFolder) (folderName parentName : String) :
    Nat → List String → String → Nat → Nat
  | 0, _, _, depth => depth
  | fuel + 1, visited, current, depth =>
    if current = "-1" ∨ current ∈ visited then depth
    else
      let next :=
        if "pipe" ++ current = folderName then parentName
        else
          match folders.find? (fun f => f.dirname == "pipe" ++ current) with
          | none => "-1"
          | some f =>
            match f.simData with
            | some (_ :: p :: _) => p
            | _ => "-1"
      walkAux folders folderName parentName fuel (current :: visited) next (depth + 1)

/-- Depth computed by `process_run_folder` for the record named `pipeName`
found in directory `folderName` whose parent field is `parentName`. -/
def walkDepth (folders : List PipeFolder) (folderName parentName pipeName : String) : Nat :=
  walkAux folders folderName parentName (folders.length + 2) [] pipeName 0

/-- The child-count scan (lines 157–165): count directories matching `pipe*`
whose record has at least 2 fields and whose parent field equals `pipeName`. -/
def childCount (folders : List PipeFolder) (pipeName : String) : Nat :=
  (folders.filter (fun f =>
    strStartsWith f.dirname "pipe" &&
      match f.simData with
      | some (_ :: p :: _) => p == pipeName
      | _ => false)).length

/-- The receiver scan (lines 167–183) over the files matching `#*Ring*.txt`:
the first file whose first line is `"0"` sets `has_receiver = 1` and `t_peak`
from the series compressed with window 10, then the loop breaks. -/
def scanReceivers : List RecFile → ℚ × ℚ
  | [] => (0, 0)
  | r :: rest =>
    if r.firstLine = "0" then
      (1, get_t_peak_normalized (compress_time_series r.series 10))
    else scanReceivers rest

/-- Python list indexing semantics for `features[slot] = row` with an `int`
slot: non-negative indices address directly, negative indices wrap from the
end, anything else raises `IndexError` (`none`). -/
def resolveIdx (len : Nat) (slot : Int) : Option Nat :=
  if 0 ≤ slot then
    if slot < (len : Int) then some slot.toNat else none
  else
    if -(len : Int) ≤ slot then some (len - slot.natAbs) else none

/-- Mutable state of the folder loop: the feature tensor and `pipe_to_slot`. -/
structure PState where
  features : List FRow
  pipeToSlot : List (String × Int)
deriving DecidableEq, Repr

/-- Processing of one pipe directory (lines 88–203).  Mirrors the source's
order: missing file → skip; fewer than 5 fields → skip; `float` on fields 2,3
(a failure raises, aborting the run); `int` on the de-prefixed field 0 →
skip on failure; skip when `slot >= max_pipes`; record `pipe_to_slot`; compute
depth, child count and receiver summary; write the feature row. -/
def processFolder (folders : List PipeFolder) (maxPipes : Nat) (LM RM : ℚ)
    (st : PState) (f : PipeFolder) : Except String PState :=
  match f.simData with
  | none => .ok st
  | some fields =>
    if fields.length < 5 then .ok st
    else
      let pipeName := fields.getD 0 ""
      let parentName := fields.getD 1 ""
      match pyFloat? (fields.getD 2 ""), pyFloat? (fields.getD 3 "") with
      | some plen, some prad =>
        match pyInt? (strReplace pipeName "pipe" "") with
        | none => .ok st
        | some pipeNumber =>
          let slot : Int := pipeNumber
          if (maxPipes : Int) ≤ slot then .ok st
          else
            let pts := st.pipeToSlot ++ [(pipeName, slot)]
            let depth := walkDepth folders f.dirname parentName pipeName
            let nchild := childCount folders pipeName
            let hr := scanReceivers (f.receivers.filter (fun r => globRing r.fname))
            let row : FRow :=
              ⟨plen / LM, prad / RM,
                ((min depth MAX_DEPTH : Nat) : ℚ) / (MAX_DEPTH : ℚ),
                ((min nchild MAX_CHILDREN : Nat) : ℚ) / (MAX_CHILDREN : ℚ),
                hr.1, hr.2, 0⟩
            match resolveIdx st.features.length slot with
            | none => .error "IndexError"
            | some idx => .ok ⟨st.features.set idx row, pts⟩
      | _, _ => .error "ValueError: float"

/-- The folder loop. -/
def processFolders (folders : List PipeFolder) (maxPipes : Nat) (LM RM : ℚ)
    (st : PState) : List PipeFolder → Except String PState
  | [] => .ok st
  | f :: rest =>
    match processFolder folders maxPipes LM RM st f with
    | .error e => .error e
    | .ok st' => processFolders folders maxPipes LM RM st' rest

/-- Parsing of `targetOutput.txt` (lines 76–85): with at least 3 fields the
emitter pipe name is field 0 and the z position is `float(field 2)`. -/
def parseTarget : Option (List String) → Except String (Option String × ℚ)
  | none => .ok (none, 0)
  | some parts =>
    if 3 ≤ parts.length then
      match pyFloat? (parts.getD 2 "") with
      | none => .error "ValueError: float"
      | some z => .ok (some (parts.getD 0 ""), z)
    else .ok (none, 0)

/-- Python dict membership and lookup for `pipe_to_slot` built by repeated
assignment (last binding wins). -/
def dictFind (l : List (String × Int)) (k : String) : Option Int :=
  (l.reverse.find? (fun p => p.1 == k)).map (fun p => p.2)

/-- Result of `process_run_folder`: the feature tensor, the two labels, and
`pipe_to_slot`. -/
structure RunResult where
  features : List FRow
  yPipeSlot : Int
  yZNorm : ℚ
  pipeToSlot : List (String × Int)
deriving DecidableEq, Repr

/-- `process_run_folder(run_folder, L_MAX, R_MAX, max_pipes)` (lines 54–249).
An uncaught Python exception (a `float` parse failure or an out-of-bounds
negative index) is modelled as `.error`; the caller `process_split` catches it
and drops the run. -/
def process_run_folder (run : RunFolder) (LM RM : ℚ) (maxPipes? : Option Nat) :
    Except String RunResult :=
  let maxPipes := maxPipes?.getD defaultMaxPipes
  let pipeFolders := run.folders.filter (fun f => strStartsWith f.dirname "pipe")
  match parseTarget run.target with
  | .error e => .error e
  | .ok (emitterPipe, emitterZ) =>
    match processFolders run.folders maxPipes LM RM
        ⟨List.replicate maxPipes sentinelRow, []⟩ pipeFolders with
    | .error e => .error e
    | .ok st =>
      let lbl : Int × ℚ :=
        match emitterPipe with
        | none => (-1, 0)
        | some name =>
          if name = "" then (-1, 0)
          else
            match dictFind st.pipeToSlot name with
            | some s => (s, emitterZ / LM)
            | none => (-1, 0)
      .ok ⟨st.features, lbl.1, lbl.2, st.pipeToSlot⟩

/-- The spec's end-to-end reconstruction example: three records
`{0: parent none, 1: parent 0, 2: parent 0}` (the source's null sentinel is
`"-1"`). -/
def c1folders : List PipeFolder :=
  [⟨"pipe0", some ["0", "-1", "0.001", "0.0001", "0"], []⟩,
   ⟨"pipe1", some ["1", "0", "0.001", "0.0001", "0"], []⟩,
   ⟨"pipe2", some ["2", "0", "0.001", "0.0001", "0"], []⟩]

/-- The example run directory for C1. -/
def c1run : RunFolder := ⟨c1folders, some ["0", "x", "0.0005"]⟩

/-- A run whose single record names the pipe `"-1"`: Python's `int` parses it
to `-1`, the `slot >= max_pipes` guard does not catch it, and the negative
index wraps, so the pipe is processed and enters `pipe_to_slot` with slot
`-1`. -/
def c4cexRun : RunFolder :=
  ⟨[⟨"pipe0", some ["-1", "-1", "0.001", "0.0001", "0"], []⟩],
   some ["-1", "q", "0.001"]⟩

/-- A run whose single record has an unparsable pipe identifier *and*
unparsable length/radius fields: the source parses the floats first, so the
raised `ValueError` aborts the whole run instead of skipping the record. -/
def c9cexRun : RunFolder :=
  ⟨[⟨"pipe0", some ["abc", "0", "zz", "zz", "x"], []⟩], none⟩

/-- A run with one well-formed record next to one record of each skippable
kind: too few fields, unparsable identifier, and out-of-range slot. -/
def c9okRun : RunFolder :=
  ⟨[⟨"pipe0", some ["0", "-1", "0.001", "0.0001", "0"], []⟩,
    ⟨"pipe1", some ["1", "2"], []⟩,
    ⟨"pipe2", some ["abc", "0", "0.001", "0.0001", "0"], []⟩,
    ⟨"pipe3", some ["7", "0", "0.001", "0.0001", "0"], []⟩], none⟩

/-- A run whose single record has length `0.002`, exceeding the `L_MAX` of
`0.001` it will be normalized with: the written column 0 value is 2. -/
def c10run : RunFolder :=
  ⟨[⟨"pipe0", some ["0", "-1", "0.002", "0.0001", "0"], []⟩], none⟩

/-! ## TopologyBuilder (tree-ring-yaml-generator.py, lines 40–212)

The generator's random draws are oracle streams: `rootDraw` models
`randint(1, max_branches)` (as `Fin B`, value + 1), `draws t` the `t`-th
`randint(0, max_branches)` of the while loop (as `Fin (B+1)`), and
`lens`/`rads` the `uniform(min, max)` length/radius of the pipe with creation
index `i` (root = 0).  Pipe and sink names `pipe<n>`/`sink<n>` are modelled by
`NName.pipe n`/`NName.sink n`.  The queue holds the position of each queued
pipe in the `pipes` list (Python queues the dict object itself) together with
a snapshot of its immutable `slot` and `depth` fields. -/

/-- A connection name: `pipe<n>` or `sink<n>` (disjoint string namespaces). -/
inductive NName where
  | pipe (n : Nat)
  | sink (n : Nat)
deriving DecidableEq, Repr

/-- An emitter record; `emitter_pattern = str(randint(..))` is modelled by the
drawn number. -/
structure TEmitter where
  z : ℚ
  r : ℚ
  theta : ℚ
  pattern : Nat
deriving DecidableEq, Repr

/-- A ring receiver record; the name `#<id>-Ring type with thickness` is
modelled by the 1-based id. -/
structure TReceiver where
  rid : Nat
  z : ℚ
  countingType : Nat
  thickness : ℚ
deriving DecidableEq, Repr

/-- One pipe dict of the generator. -/
structure TPipe where
  name : Nat
  length : ℚ
  radius : ℚ
  left_connections : List NName
  right_connections : List NName
  flow : ℚ
  emitters : List TEmitter
  receivers : List TReceiver
  depth : Nat
  slot : Nat
deriving DecidableEq, Repr

/-- A queued pipe: its position in the pipes list plus the (immutable) slot
and depth stored in it. -/
structure QEntry where
  idx : Nat
  slot : Nat
  depth : Nat
deriving DecidableEq, Repr

/-- In-place update of one list element (a no-op out of range, which never
happens in the uses below). -/
def modifyIdx {α : Type _} (l : List α) (i : Nat) (g : α → α) : List α :=
  match l[i]? with
  | none => l
  | some x => l.set i (g x)

/-- A freshly created child pipe (creation index `ci`, slot `cslot`, parent
slot `pslot`, depth `cdepth`): `flow` is 0, the single left connection names
the parent, and `right_connections` starts empty. -/
def mkChildPipe (lens rads : Nat → ℚ) (ci cslot pslot cdepth : Nat) : TPipe :=
  ⟨cslot, lens ci, rads ci, [NName.pipe pslot], [], 0, [], [], cdepth, cslot⟩

/-- Termination measure of the while loop: expanding a node at depth `d < maxD`
replaces weight `(2B+2)^(maxD+1-d)` by at most `B·(2B+2)^(maxD-d)`, a strict
decrease. -/
def qMeasure (B maxDepth : Nat) (q : List QEntry) : Nat :=
  (q.map (fun e => (2 * B + 2) ^ (maxDepth + 1 - e.depth))).sum

/-- The slot of the `k`-th child of queue entry `e`
(line 117 of the source). -/
def childSlot (B : Nat) (e : QEntry) (k : Nat) : Nat :=
  slot_id B (e.depth + 1) (B * (e.slot - slot_id B e.depth 0) + k)

/-- The `while queue:` loop (lines 99–139).  Fuel-based for kernel
computability; `buildTree` supplies fuel exceeding the measure, which the loop
never exhausts. -/
def buildLoop (B maxDepth : Nat) (draws : Nat → Fin (B + 1)) (lens rads : Nat → ℚ) :
    Nat → Nat → List TPipe → List QEntry → List TPipe
  | _, _, pipes, [] => pipes
  | 0, _, pipes, _ :: _ => pipes
  | fuel + 1, t, pipes, e :: rest =>
    if maxDepth ≤ e.depth then buildLoop B maxDepth draws lens rads fuel t pipes rest
    else
      let c := (draws t).val
      let start := pipes.length
      let children := (List.range c).map (fun k =>
        mkChildPipe lens rads (start + k) (childSlot B e k) e.slot (e.depth + 1))
      let pipes' := (modifyIdx pipes e.idx (fun p =>
        { p with right_connections :=
            p.right_connections ++ (List.range c).map (fun k => NName.pipe (childSlot B e k)) }))
        ++ children
      let queue' := rest ++ (List.range c).map (fun k =>
        (⟨start + k, childSlot B e k, e.depth + 1⟩ : QEntry))
      buildLoop B maxDepth draws lens rads fuel (t + 1) pipes' queue'

/-- Steps 1–2 of `generate_pipe_tree_yaml`: the root (slot 0, depth 0, flow
already `flow_value`), its `rootDraw+1` first-level children (the first-level
loop runs regardless of `max_depth`), then the BFS while loop. -/
def buildTree (B maxDepth : Nat) (rootDraw : Fin B) (draws : Nat → Fin (B + 1))
    (lens rads : Nat → ℚ) (flowValue : ℚ) : List TPipe :=
  let nb := rootDraw.val + 1
  let rootChildren := (List.range nb).map (fun k =>
    mkChildPipe lens rads (1 + k) (slot_id B 1 k) 0 1)
  let root : TPipe :=
    ⟨0, lens 0, rads 0, [], (List.range nb).map (fun k => NName.pipe (slot_id B 1 k)),
      flowValue, [], [], 0, 0⟩
  let queue0 := (List.range nb).map (fun k => (⟨1 + k, slot_id B 1 k, 1⟩ : QEntry))
  buildLoop B maxDepth draws lens rads (qMeasure B maxDepth queue0 + 1) 0
    (root :: rootChildren) queue0

/-- Step 3 (as rewritten in the source): every pipe gets the same flow. -/
def setUniformFlow (flowValue : ℚ) (pipes : List TPipe) : List TPipe :=
  pipes.map (fun p => { p with flow := flowValue })

/-- Step 4: append the single emitter to the chosen pipe (`eidx` models the
index drawn by `random.choices` over the depth-biased weights; the weights
only shape the distribution, not the possible outcomes). -/
def placeEmitter (pipes : List TPipe) (eidx : Nat) (ez er etheta : ℚ) (epat : Nat) :
    List TPipe :=
  modifyIdx pipes eidx (fun p => { p with emitters := p.emitters ++ [⟨ez, er, etheta, epat⟩] })

/-- Step 5: walk the pipes in order; every pipe with an empty
`right_connections` gets the next sink appended to its connections and a ring
receiver (countingType 0, `z = length - thickness`) with the next global
receiver id. -/
def attachSinks (thickness : ℚ) :
    List TPipe → Nat → Nat → (List TPipe × List (Nat × NName))
  | [], _, _ => ([], [])
  | p :: rest, sinkCount, receiverId =>
    if p.right_connections = [] then
      let p' : TPipe := { p with
        right_connections := p.right_connections ++ [NName.sink (sinkCount + 1)],
        receivers := p.receivers ++ [⟨receiverId, p.length - thickness, 0, thickness⟩] }
      let pr := attachSinks thickness rest (sinkCount + 1) (receiverId + 1)
      (p' :: pr.1, (sinkCount + 1, NName.pipe p.name) :: pr.2)
    else
      let pr := attachSinks thickness rest sinkCount receiverId
      (p :: pr.1, pr.2)

/-- The full generation pipeline of `generate_pipe_tree_yaml` (minus the YAML
rendering): build, uniform flow, emitter, sinks and leaf receivers. -/
def genTreeRing (B maxDepth : Nat) (rootDraw : Fin B) (draws : Nat → Fin (B + 1))
    (lens rads : Nat → ℚ) (flowValue : ℚ) (eidx : Nat) (ez er etheta : ℚ) (epat : Nat)
    (thickness : ℚ) : List TPipe × List (Nat × NName) :=
  let built := buildTree B maxDepth rootDraw draws lens rads flowValue
  let flowed := setUniformFlow flowValue built
  let withEmitter := placeEmitter flowed eidx ez er etheta epat
  attachSinks thickness withEmitter 0 1

/-- Total number of emitters across a pipe list. -/
def totalEmitters (pipes : List TPipe) : Nat :=
  (pipes.map (fun p => p.emitters.length)).sum

/-! ### C5: slot uniqueness, root shape, parent links, acyclicity

The invariant run below tracks, along the BFS while loop: pipes listed in
strictly increasing slot order, every pipe named by its slot and ranged within
its depth's slot window, root shape, the single-parent link, the child links
(every right connection names a pipe of strictly larger slot), the
queue/pipes correspondence, queue keys advancing by at least `B` (child slot
ranges are reserved in full and never reused), and freshness (every existing
slot is below every queued entry's child range). -/

/-- The first slot that would be allocated to a child of queue entry `e`; the
`k`-th child gets `qkey B e + k` (line 117 of the source, rewritten via the
exact geometric sum). -/
def qkey (B : Nat) (e : QEntry) : Nat :=
  sdepth B (e.depth + 1) + B * (e.slot - sdepth B e.depth)

/-- Queue discipline: keys advance by at least `B` (allocated child ranges are
disjoint and increasing) and depths are non-decreasing within a window of 1. -/
def Rlex (B : Nat) (a b : QEntry) : Prop :=
  qkey B a + B ≤ qkey B b ∧ a.depth ≤ b.depth ∧ b.depth ≤ a.depth + 1

/-- Appending connection names to a pipe's `right_connections` (the only pipe
mutation the while loop performs), as a named function. -/
def addRight (names : List NName) (p : TPipe) : TPipe :=
  { p with right_connections := p.right_connections ++ names }

/-- The pipes list right after the unconditional first-level loop: root plus
`nb` children (steps 1–2 of the source before the while loop). -/
def initPipes (B nb : Nat) (lens rads : Nat → ℚ) (flowv : ℚ) : List TPipe :=
  (⟨0, lens 0, rads 0, [], (List.range nb).map (fun k => NName.pipe (slot_id B 1 k)),
      flowv, [], [], 0, 0⟩ : TPipe)
    :: (List.range nb).map (fun k => mkChildPipe lens rads (1 + k) (slot_id B 1 k) 0 1)

/-- The queue right after the first-level loop. -/
def initQueue (B nb : Nat) : List QEntry :=
  (List.range nb).map (fun k => (⟨1 + k, slot_id B 1 k, 1⟩ : QEntry))

/-! ## Flow distribution of the random-tree generator (yaml-generator.py,
lines 97–147)

Positions `0 .. n-1` index the pipes after the root swap and shuffle (root at
position 0); pipe names are unique, so the `name_to_pipe` lookup is the
identity on positions.  `par i` models the drawn `parent_index ∈ [0, i-1]` of
the pipe at position `i ≥ 1` (hypothesis `par i < i`); the radius oracle gives
each position's drawn radius.  `right_connections` of position `p` lists
exactly the positions `i ≥ 1` with `par i = p`, in increasing order.  All
pipes are created with `flow = flow_value` and the BFS loop reassigns each
child's flow from its parent's current flow, proportionally to radius when the
sibling radius total is positive and 0 otherwise. -/

/-- The children of position `p`: positions `1 ≤ i < n` whose drawn parent is
`p`, in increasing order (the order their names were appended to
`right_connections`). -/
def childrenOf (n : Nat) (par : Nat → Nat) (p : Nat) : List Nat :=
  (List.range n).filter (fun i => decide (1 ≤ i ∧ par i = p))

/-- `total_r`: the sum of the children's radii (line 143). -/
def trOf (n : Nat) (par : Nat → Nat) (radius : Nat → ℚ) (p : Nat) : ℚ :=
  ((childrenOf n par p).map radius).sum

/-- The inner `for child, r in zip(children, radii)` loop (lines 145–147):
each child's flow is assigned in turn from the parent's current flow. -/
def assignChildren (radius : Nat → ℚ) (tr : ℚ) :
    (Nat → ℚ) → Nat → List Nat → (Nat → ℚ)
  | f, _, [] => f
  | f, p, c :: cs =>
    assignChildren radius tr
      (fun j => if j = c then (if 0 < tr then f p * (radius c / tr) else 0) else f j)
      p cs

/-- The `while queue:` BFS of the flow phase (lines 134–147), fuel-based.  A
childless node is skipped (`continue`); otherwise its children's flows are
assigned and the children are enqueued. -/
def flowLoop (n : Nat) (par : Nat → Nat) (radius : Nat → ℚ) :
    Nat → (Nat → ℚ) → List Nat → (Nat → ℚ)
  | _, f, [] => f
  | 0, f, _ :: _ => f
  | fuel + 1, f, p :: rest =>
    if childrenOf n par p = [] then
      flowLoop n par radius fuel f rest
    else
      flowLoop n par radius fuel
        (assignChildren radius (trOf n par radius p) f p (childrenOf n par p))
        (rest ++ childrenOf n par p)

/-- The whole flow-distribution phase: every pipe starts with `flow_value`
(line 72; line 130 re-sets the root to the same value) and the BFS runs from
the root.  The fuel `3^n` dominates the loop's termination measure. -/
def distributeFlows (n : Nat) (par : Nat → Nat) (radius : Nat → ℚ) (fv : ℚ) :
    Nat → ℚ :=
  flowLoop n par radius (3 ^ n) (fun _ => fv) [0]

/-- `k`-fold application of the parent map. -/
def parIter (par : Nat → Nat) : Nat → Nat → Nat
  | 0, i => i
  | k + 1, i => parIter par k (par i)

/-- `j` is an ancestor of `i` (or `i` itself): the parent chain from `i`
reaches `j` without passing through the root on the way. -/
def inSub (par : Nat → Nat) (j i : Nat) : Prop :=
  ∃ k, parIter par k i = j ∧ ∀ m, m < k → 1 ≤ parIter par m i

/-- Intended flow of each position, by structural descent along `par` (the
fuel `i + 1` covers the strictly decreasing parent chain). -/
def flowOfAux (n : Nat) (par : Nat → Nat) (radius : Nat → ℚ) (fv : ℚ) :
    Nat → Nat → ℚ
  | 0, _ => 0
  | _ + 1, 0 => fv
  | fuel + 1, j + 1 =>
    if 0 < trOf n par radius (par (j + 1)) then
      flowOfAux n par radius fv fuel (par (j + 1))
        * (radius (j + 1) / trOf n par radius (par (j + 1)))
    else 0

/-- Intended final flow of position `i`. -/
def flowOf (n : Nat) (par : Nat → Nat) (radius : Nat → ℚ) (fv : ℚ) (i : Nat) : ℚ :=
  flowOfAux n par radius fv (i + 1) i

/-! ### Lemmas about the compressors -/

theorem ctsGo_stable (fuel₁ : Nat) :
    ∀ (fuel₂ : Nat) (ts : List Nat) (f : Nat), ts.length ≤ fuel₁ → ts.length ≤ fuel₂ →
      ctsGo fuel₁ ts f = ctsGo fuel₂ ts f := by
  induction fuel₁ with
  | zero =>
    intro fuel₂ ts f h1 h2
    have hts : ts = [] := List.length_eq_zero.mp (Nat.le_zero.mp h1)
    subst hts
    cases fuel₂ with
    | zero => rfl
    | succ m => simp [ctsGo]
  | succ n ih =>
    intro fuel₂ ts f h1 h2
    cases fuel₂ with
    | zero =>
      have hts : ts = [] := List.length_eq_zero.mp (Nat.le_zero.mp h2)
      subst hts
      simp [ctsGo]
    | succ m =>
      simp only [ctsGo]
      by_cases hc : ts = [] ∨ f = 0
      · rw [if_pos hc, if_pos hc]
      · rw [if_neg hc, if_neg hc]
        push_neg at hc
        have hne : ts ≠ [] := hc.1
        have hf : f ≠ 0 := hc.2
        have hlen : 0 < ts.length := List.length_pos.mpr hne
        congr 1
        apply ih
        · simp only [List.length_drop]
          omega
        · simp only [List.length_drop]
          omega

theorem compress_time_series_nil (W : Nat) : compress_time_series [] W = [] := rfl

theorem compress_time_series_cons (x : Nat) (rest : List Nat) (W : Nat) (hW : 1 ≤ W) :
    compress_time_series (x :: rest) W =
      ((x :: rest).take W).sum :: compress_time_series ((x :: rest).drop W) W := by
  show ctsGo ((x :: rest).length) (x :: rest) W = _
  simp only [List.length_cons, ctsGo]
  rw [if_neg (by push_neg; exact ⟨List.cons_ne_nil x rest, by omega⟩)]
  rw [compress_time_series]
  congr 1
  apply ctsGo_stable
  · simp only [List.length_drop, List.length_cons]
    omega
  · exact le_rfl

theorem compress_time_series_length (W : Nat) (hW : 1 ≤ W) (ts : List Nat) :
    (compress_time_series ts W).length = (ts.length + W - 1) / W := by
  have key : ∀ n (ts : List Nat), ts.length ≤ n →
      (compress_time_series ts W).length = (ts.length + W - 1) / W := by
    intro n
    induction n with
    | zero =>
      intro ts hts
      have : ts = [] := List.length_eq_zero.mp (Nat.le_zero.mp hts)
      subst this
      rw [compress_time_series_nil]
      simp only [List.length_nil, Nat.zero_add]
      exact (Nat.div_eq_of_lt (by omega)).symm
    | succ n ih =>
      intro ts hts
      match ts with
      | [] =>
        rw [compress_time_series_nil]
        simp only [List.length_nil, Nat.zero_add]
        exact (Nat.div_eq_of_lt (by omega)).symm
      | x :: rest =>
        rw [compress_time_series_cons x rest W hW]
        have hdrop : ((x :: rest).drop W).length ≤ n := by
          simp only [List.length_drop, List.length_cons]
          simp only [List.length_cons] at hts
          omega
        rw [List.length_cons, ih _ hdrop]
        simp only [List.length_drop, List.length_cons]
        have hR : rest.length + 1 + W - 1 = rest.length + 1 - 1 + W := by omega
        rw [hR, Nat.add_div_right _ (by omega : 0 < W)]
        rcases Nat.lt_or_ge (rest.length + 1) W with hlt | hge
        · -- the whole list fits in one window
          have h1 : rest.length + 1 - W = 0 := by omega
          rw [h1]
          rw [Nat.div_eq_of_lt (show 0 + W - 1 < W by omega)]
          rw [Nat.div_eq_of_lt (show rest.length + 1 - 1 < W by omega)]
        · -- at least one full window remains
          have h1 : rest.length + 1 - W + W - 1 = rest.length + 1 - 1 := by omega
          rw [h1]
  exact key ts.length ts le_rfl

theorem compress_time_series_sum (W : Nat) (hW : 1 ≤ W) (ts : List Nat) :
    (compress_time_series ts W).sum = ts.sum := by
  have key : ∀ n (ts : List Nat), ts.length ≤ n →
      (compress_time_series ts W).sum = ts.sum := by
    intro n
    induction n with
    | zero =>
      intro ts hts
      have : ts = [] := List.length_eq_zero.mp (Nat.le_zero.mp hts)
      subst this
      rw [compress_time_series_nil]
    | succ n ih =>
      intro ts hts
      match ts with
      | [] => rw [compress_time_series_nil]
      | x :: rest =>
        rw [compress_time_series_cons x rest W hW, List.sum_cons]
        have hdrop : ((x :: rest).drop W).length ≤ n := by
          simp only [List.length_drop, List.length_cons]
          simp only [List.length_cons] at hts
          omega
        rw [ih _ hdrop]
        exact List.sum_take_add_sum_drop _ _
  exact key ts.length ts le_rfl

theorem compress_time_series_window (W : Nat) (hW : 1 ≤ W) (ts : List Nat) :
    ∀ i, i < (compress_time_series ts W).length →
      (compress_time_series ts W)[i]? = some (((ts.drop (i * W)).take W).sum) := by
  have key : ∀ n (ts : List Nat), ts.length ≤ n → ∀ i, i < (compress_time_series ts W).length →
      (compress_time_series ts W)[i]? = some (((ts.drop (i * W)).take W).sum) := by
    intro n
    induction n with
    | zero =>
      intro ts hts i hi
      have : ts = [] := List.length_eq_zero.mp (Nat.le_zero.mp hts)
      subst this
      rw [compress_time_series_nil] at hi
      simp at hi
    | succ n ih =>
      intro ts hts i hi
      match ts with
      | [] =>
        rw [compress_time_series_nil] at hi
        simp at hi
      | x :: rest =>
        rw [compress_time_series_cons x rest W hW] at hi ⊢
        have hdrop : ((x :: rest).drop W).length ≤ n := by
          simp only [List.length_drop, List.length_cons]
          simp only [List.length_cons] at hts
          omega
        match i with
        | 0 => simp
        | i + 1 =>
          rw [List.getElem?_cons_succ]
          rw [List.length_cons] at hi
          rw [ih _ hdrop i (by omega)]
          rw [List.drop_drop]
          have hiw : W + i * W = (i + 1) * W := by ring
          rw [hiw]
  exact key ts.length ts le_rfl

theorem dropLastIfZero_nil : dropLastIfZero [] = [] := by
  rw [dropLastIfZero]
  simp

theorem dropLastIfZero_cons (a : Nat) (l : List Nat) (hl : l ≠ []) :
    dropLastIfZero (a :: l) = a :: dropLastIfZero l := by
  match l with
  | b :: l' =>
    rw [dropLastIfZero, dropLastIfZero]
    rw [List.getLast?_cons_cons]
    by_cases h : (b :: l').getLast? = some 0
    · rw [if_pos h, if_pos h]
      rfl
    · rw [if_neg h, if_neg h]

theorem dropLastIfZero_sum (l : List Nat) : (dropLastIfZero l).sum = l.sum := by
  rw [dropLastIfZero]
  by_cases h : l.getLast? = some 0
  · rw [if_pos h]
    match l with
    | [] => simp at h
    | a :: l' =>
      conv_rhs => rw [← List.dropLast_append_getLast (l := a :: l') (by simp)]
      rw [List.getLast?_eq_getLast _ (by simp)] at h
      have h0 : (a :: l').getLast (by simp) = 0 := by
        exact Option.some_injective _ h
      rw [h0]
      simp
  · rw [if_neg h]

theorem dropLastIfZero_length (l : List Nat) :
    (dropLastIfZero l).length = if l.getLast? = some 0 then l.length - 1 else l.length := by
  rw [dropLastIfZero]
  by_cases h : l.getLast? = some 0
  · rw [if_pos h, if_pos h, List.length_dropLast]
  · rw [if_neg h, if_neg h]

theorem take_cons_of_pos {α : Type _} (a : α) (l : List α) (n : Nat) (h : 0 < n) :
    (a :: l).take n = a :: l.take (n - 1) := by
  match n, h with
  | n + 1, _ => simp [List.take_succ_cons]

theorem drop_cons_of_pos {α : Type _} (a : α) (l : List α) (n : Nat) (h : 0 < n) :
    (a :: l).drop n = l.drop (n - 1) := by
  match n, h with
  | n + 1, _ => simp [List.drop_succ_cons]

/-- Closed form for the `compress_data` loop from any reachable mid-stream state
(`counter ≠ 0`): the pending partial sum `s` absorbs the elements still fitting
in the current window, and everything after that is plain window summation,
with a trailing zero group dropped. -/
theorem compress_data_go_eq (W : Nat) (hW : 1 ≤ W) (arr : List Nat) :
    ∀ (counter s : Nat) (acc : List Nat), counter ≠ 0 →
      compress_data_go W counter s acc arr =
        acc ++ dropLastIfZero
          ((s + (arr.take (if counter % W = 0 then 0 else W - counter % W)).sum) ::
            compress_time_series
              (arr.drop (if counter % W = 0 then 0 else W - counter % W)) W) := by
  induction arr with
  | nil =>
    intro counter s acc hc
    simp only [compress_data_go, List.take_nil, List.drop_nil, List.sum_nil, Nat.add_zero,
      compress_time_series_nil]
    rw [dropLastIfZero]
    simp only [List.getLast?_singleton, Option.some.injEq, List.dropLast_single]
    by_cases hs : s = 0
    · subst hs
      simp
    · rw [if_neg hs, if_pos (Nat.pos_of_ne_zero hs)]
  | cons x rest ih =>
    intro counter s acc hc
    by_cases hA : counter % W = 0
    · -- window boundary: flush `s`, start a new window with `x`
      simp only [compress_data_go]
      rw [if_pos ⟨hA, hc⟩, ih (counter + 1) (0 + x) (acc ++ [s]) (by omega)]
      rw [if_pos hA]
      simp only [List.take_zero, List.sum_nil, Nat.add_zero, List.drop_zero, Nat.zero_add]
      have hm : (counter + 1) % W = 1 % W := by
        rw [Nat.add_mod, hA, Nat.zero_add]
        exact Nat.mod_eq_of_lt (Nat.mod_lt _ (by omega))
      by_cases hW1 : W = 1
      · subst hW1
        have hm0 : (counter + 1) % 1 = 0 := Nat.mod_one _
        rw [if_pos hm0]
        simp only [List.take_zero, List.sum_nil, Nat.add_zero, List.drop_zero]
        rw [compress_time_series_cons x rest 1 le_rfl]
        rw [take_cons_of_pos x rest 1 (by omega), drop_cons_of_pos x rest 1 (by omega)]
        simp only [Nat.sub_self, List.take_zero, List.drop_zero, List.sum_cons, List.sum_nil,
          Nat.add_zero]
        rw [List.append_assoc, List.singleton_append,
          dropLastIfZero_cons s _ (List.cons_ne_nil _ _)]
      · have hW2 : 2 ≤ W := by omega
        have hm1 : (counter + 1) % W = 1 := by
          rw [hm]
          exact Nat.mod_eq_of_lt (by omega)
        rw [if_neg (by rw [hm1]; omega)]
        rw [hm1]
        rw [compress_time_series_cons x rest W hW]
        rw [take_cons_of_pos x rest W (by omega), drop_cons_of_pos x rest W (by omega)]
        simp only [List.sum_cons]
        rw [List.append_assoc, List.singleton_append,
          dropLastIfZero_cons s _ (List.cons_ne_nil _ _)]
    · -- mid-window: absorb `x` into the pending sum
      have hWpos : 0 < W := by omega
      have hrlt : counter % W < W := Nat.mod_lt _ hWpos
      have hW2 : 2 ≤ W := by
        by_contra hcon
        have hW1 : W = 1 := by omega
        subst hW1
        exact hA (Nat.mod_one counter)
      have h1W : 1 % W = 1 := Nat.mod_eq_of_lt (by omega)
      have hm : (counter + 1) % W = (counter % W + 1) % W := by
        rw [Nat.add_mod, h1W]
      simp only [compress_data_go]
      rw [if_neg (by
        intro hcontra
        exact hA hcontra.1)]
      rw [ih (counter + 1) (s + x) acc (by omega)]
      rw [if_neg hA]
      by_cases hfull : counter % W + 1 = W
      · -- `x` completes the current window
        have hm0 : (counter + 1) % W = 0 := by
          rw [hm, hfull, Nat.mod_self]
        rw [if_pos hm0]
        simp only [List.take_zero, List.sum_nil, Nat.add_zero, List.drop_zero]
        have hroom : W - counter % W = 1 := by omega
        rw [hroom]
        rw [take_cons_of_pos x rest 1 (by omega), drop_cons_of_pos x rest 1 (by omega)]
        simp only [Nat.sub_self, List.take_zero, List.drop_zero, List.sum_cons, List.sum_nil,
          Nat.add_zero, Nat.add_assoc]
      · -- still room after `x`
        have hm1 : (counter + 1) % W = counter % W + 1 := by
          rw [hm]
          exact Nat.mod_eq_of_lt (by omega)
        rw [if_neg (by rw [hm1]; omega)]
        rw [hm1]
        rw [take_cons_of_pos x rest (W - counter % W) (by omega),
          drop_cons_of_pos x rest (W - counter % W) (by omega)]
        have hroom : W - counter % W - 1 = W - (counter % W + 1) := by omega
        rw [hroom]
        simp only [List.sum_cons, Nat.add_assoc]

/-- `compress_data` is window summation with a trailing zero-sum group dropped. -/
theorem compress_data_eq (arr : List Nat) (W : Nat) (hW : 1 ≤ W) :
    compress_data arr W = dropLastIfZero (compress_time_series arr W) := by
  match arr with
  | [] =>
    simp only [compress_data, compress_data_go, compress_time_series_nil, dropLastIfZero_nil]
    simp
  | x :: rest =>
    rw [compress_data]
    simp only [compress_data_go]
    rw [if_neg (by
      intro hcontra
      exact hcontra.2 rfl)]
    rw [compress_data_go_eq W hW rest 1 (0 + x) [] (by omega)]
    rw [List.nil_append]
    rw [compress_time_series_cons x rest W hW]
    rw [take_cons_of_pos x rest W (by omega), drop_cons_of_pos x rest W (by omega)]
    by_cases hW1 : W = 1
    · subst hW1
      have hm0 : (1 : Nat) % 1 = 0 := Nat.mod_one _
      rw [if_pos hm0]
      simp only [List.take_zero, List.sum_nil, Nat.add_zero, List.drop_zero, Nat.zero_add,
        Nat.sub_self, List.sum_cons]
    · have hW2 : 2 ≤ W := by omega
      have h1W : 1 % W = 1 := Nat.mod_eq_of_lt (by omega)
      rw [if_neg (by rw [h1W]; omega)]
      rw [h1W]
      simp only [List.sum_cons, Nat.zero_add]

/-! ### Lemmas about `argmaxList` and the peak maximum -/

theorem argmaxGo_range (ts : List Nat) :
    ∀ bi bv i, argmaxGo bi bv i ts = bi ∨
      (i ≤ argmaxGo bi bv i ts ∧ argmaxGo bi bv i ts < i + ts.length) := by
  induction ts with
  | nil =>
    intro bi bv i
    left
    rfl
  | cons x rest ih =>
    intro bi bv i
    rw [argmaxGo]
    by_cases h : bv < x
    · rw [if_pos h]
      rcases ih i x (i + 1) with h1 | h1
      · right
        rw [h1]
        simp only [List.length_cons]
        omega
      · right
        simp only [List.length_cons]
        omega
    · rw [if_neg h]
      rcases ih bi bv (i + 1) with h1 | h1
      · left
        exact h1
      · right
        simp only [List.length_cons]
        omega

theorem argmaxList_lt_length (ts : List Nat) (hne : ts ≠ []) :
    argmaxList ts < ts.length := by
  have hlen : 0 < ts.length := List.length_pos.mpr hne
  rw [argmaxList]
  rcases argmaxGo_range ts 0 0 0 with h | h
  · omega
  · omega

theorem foldr_max_eq_zero_iff (ts : List Nat) :
    ts.foldr max 0 = 0 ↔ ∀ x ∈ ts, x = 0 := by
  induction ts with
  | nil => simp
  | cons x rest ih =>
    simp only [List.foldr_cons, Nat.max_eq_zero_iff, List.mem_cons]
    constructor
    · rintro ⟨hx, hr⟩ y hy
      rcases hy with hy | hy
      · exact hy ▸ hx
      · exact ih.mp hr y hy
    · intro h
      exact ⟨h x (Or.inl rfl), ih.mpr (fun y hy => h y (Or.inr hy))⟩

/-! ### Claim theorems for the SignalCompressor -/

/-- C2, counterexample: the claim states that the compression operation always
outputs exactly `ceil(L/W)` values, and cites `compress_data` among its
implementations; but `compress_data` drops a trailing group whose sum is zero,
so compressing the length-1 sequence `[0]` with window 1 yields `[]`,
not `ceil(1/1) = 1` values. -/
theorem c2_counterexample :
    (compress_data [0] 1).length ≠ (([0] : List Nat).length + 1 - 1) / 1 := by
  decide

/-- C2, amended: `compress_time_series` satisfies the claim in full (output
length `ceil(L/W)`, each output a window sum, total conservation, and the
`[1..10]` with window 5 example); `compress_data` conserves the sum and equals
window summation with a trailing zero-sum group dropped, so its output length
is `ceil(L/W)` whenever the final window has a non-zero sum (or the input is
empty). -/
theorem c2_amended (ts : List Nat) (W : Nat) (hW : 1 ≤ W) :
    (compress_time_series ts W).length = (ts.length + W - 1) / W
    ∧ (compress_time_series ts W).sum = ts.sum
    ∧ (∀ i, i < (compress_time_series ts W).length →
        (compress_time_series ts W)[i]? = some (((ts.drop (i * W)).take W).sum))
    ∧ compress_time_series [1,2,3,4,5,6,7,8,9,10] 5 = [15, 40]
    ∧ (compress_data ts W).sum = ts.sum
    ∧ compress_data ts W = dropLastIfZero (compress_time_series ts W)
    ∧ ((compress_time_series ts W).getLast? ≠ some 0 →
        (compress_data ts W).length = (ts.length + W - 1) / W) := by
  refine ⟨compress_time_series_length W hW ts, compress_time_series_sum W hW ts,
    compress_time_series_window W hW ts, by decide, ?_, compress_data_eq ts W hW, ?_⟩
  · rw [compress_data_eq ts W hW, dropLastIfZero_sum, compress_time_series_sum W hW ts]
  · intro h
    rw [compress_data_eq ts W hW, dropLastIfZero_length, if_neg h,
      compress_time_series_length W hW ts]

theorem c2_amended_witness :
    (compress_time_series [1,2,3,4,5,6,7,8,9,10] 5).length = (10 + 5 - 1) / 5
    ∧ (compress_data [1,2,3,4,5,6,7,8,9,10] 5).sum = [1,2,3,4,5,6,7,8,9,10].sum
    ∧ compress_data [1,2,3,4,5,6,7,8,9,10] 5
        = dropLastIfZero (compress_time_series [1,2,3,4,5,6,7,8,9,10] 5) := by
  have h := c2_amended [1,2,3,4,5,6,7,8,9,10] 5 (by decide)
  exact ⟨h.1, h.2.2.2.2.1, h.2.2.2.2.2.1⟩

/-- C3: `get_t_peak_normalized` returns `argmax/len ∈ [0, 1)` on a non-empty
sequence containing a non-zero value, and exactly `0` on the empty sequence and
on every all-zero sequence. -/
theorem c3_t_peak :
    (∀ ts : List Nat, ts ≠ [] → (∃ x ∈ ts, x ≠ 0) →
        get_t_peak_normalized ts = (argmaxList ts : ℚ) / (ts.length : ℚ)
        ∧ 0 ≤ get_t_peak_normalized ts ∧ get_t_peak_normalized ts < 1)
    ∧ get_t_peak_normalized [] = 0
    ∧ (∀ ts : List Nat, (∀ x ∈ ts, x = 0) → get_t_peak_normalized ts = 0) := by
  refine ⟨?_, ?_, ?_⟩
  · intro ts hne hx
    have hmax : ts.foldr max 0 ≠ 0 := by
      intro h
      obtain ⟨x, hxmem, hx0⟩ := hx
      exact hx0 ((foldr_max_eq_zero_iff ts).mp h x hxmem)
    have hlen : 0 < ts.length := List.length_pos.mpr hne
    have heq : get_t_peak_normalized ts = (argmaxList ts : ℚ) / (ts.length : ℚ) := by
      rw [get_t_peak_normalized, if_neg (by push_neg; exact ⟨hne, hmax⟩), if_pos hlen]
    refine ⟨heq, ?_, ?_⟩
    · rw [heq]
      positivity
    · rw [heq]
      rw [div_lt_one (by positivity)]
      exact_mod_cast argmaxList_lt_length ts hne
  · rw [get_t_peak_normalized]
    simp
  · intro ts hall
    rw [get_t_peak_normalized, if_pos (Or.inr ((foldr_max_eq_zero_iff ts).mpr hall))]

theorem c3_t_peak_witness :
    get_t_peak_normalized [0,3,1] = (argmaxList [0,3,1] : ℚ) / (([0,3,1] : List Nat).length : ℚ)
    ∧ 0 ≤ get_t_peak_normalized [0,3,1] ∧ get_t_peak_normalized [0,3,1] < 1
    ∧ get_t_peak_normalized [] = 0
    ∧ get_t_peak_normalized [0,0,0] = 0 := by
  have h1 := c3_t_peak.1 [0,3,1] (by decide) ⟨3, by decide, by decide⟩
  exact ⟨h1.1, h1.2.1, h1.2.2, c3_t_peak.2.1, c3_t_peak.2.2 [0,0,0] (by decide)⟩

theorem sdepth_succ (B d : Nat) : sdepth B (d + 1) = sdepth B d * B + 1 := rfl

/-- The geometric-sum identity `(B - 1) * sdepth B d = B^d - 1`. -/
theorem sdepth_mul (B : Nat) (hB : 2 ≤ B) (d : Nat) :
    (B - 1) * sdepth B d = B ^ d - 1 := by
  induction d with
  | zero => simp [sdepth]
  | succ d ih =>
    rw [sdepth_succ, pow_succ]
    have hpow : 1 ≤ B ^ d := Nat.one_le_pow _ _ (by omega)
    have key : (B - 1) * (sdepth B d * B + 1) + 1 = B ^ d * B := by
      have e1 : (B - 1) * (sdepth B d * B + 1) = (B - 1) * sdepth B d * B + (B - 1) := by
        ring
      rw [e1, ih]
      have e2 : (B ^ d - 1) * B + (B - 1) + 1 = (B ^ d - 1) * B + B := by omega
      rw [e2, ← Nat.succ_mul]
      have e3 : (B ^ d - 1).succ = B ^ d := by omega
      rw [e3]
    omega

/-- For `B ≥ 2`, `slot_id` is `sdepth` plus the branch index (the Python floor
division is exact on the geometric sum). -/
theorem slot_id_eq (B : Nat) (hB : 2 ≤ B) (level branch_idx : Nat) :
    slot_id B level branch_idx = sdepth B level + branch_idx := by
  rw [slot_id]
  congr 1
  rw [← sdepth_mul B hB level]
  exact Nat.mul_div_cancel_left _ (by omega)

theorem sdepth_lt_succ (B : Nat) (hB : 2 ≤ B) (d : Nat) :
    sdepth B d < sdepth B (d + 1) := by
  rw [sdepth_succ]
  have h1 : sdepth B d ≤ sdepth B d * B := Nat.le_mul_of_pos_right _ (by omega)
  omega

theorem sdepth_add_pow (B : Nat) (hB : 2 ≤ B) (d : Nat) :
    sdepth B (d + 1) = sdepth B d + B ^ d := by
  have hpow : 1 ≤ B ^ d := Nat.one_le_pow _ _ (by omega)
  have e1 : (B - 1) * B ^ d + B ^ d = B ^ d * B := by
    have e1a : (B - 1) * B ^ d + B ^ d = (B - 1 + 1) * B ^ d := by ring
    rw [e1a]
    have e1b : B - 1 + 1 = B := by omega
    rw [e1b]
    ring
  have h2 : (B - 1) * (sdepth B d + B ^ d) = B ^ d * B - 1 := by
    have e0 : (B - 1) * (sdepth B d + B ^ d) = (B - 1) * sdepth B d + (B - 1) * B ^ d := by
      ring
    rw [e0, sdepth_mul B hB]
    omega
  have h3 : (B - 1) * sdepth B (d + 1) = B ^ d * B - 1 := by
    rw [sdepth_mul B hB, pow_succ]
  exact Nat.eq_of_mul_eq_mul_left (by omega) (h3.trans h2.symm)

theorem sdepth_le_sdepth (B : Nat) (hB : 2 ≤ B) {d₁ d₂ : Nat} (h : d₁ ≤ d₂) :
    sdepth B d₁ ≤ sdepth B d₂ := by
  induction d₂ with
  | zero =>
    have : d₁ = 0 := Nat.le_zero.mp h
    subst this
    exact le_rfl
  | succ n ih =>
    rcases Nat.lt_or_ge d₁ (n + 1) with h1 | h1
    · exact le_trans (ih (by omega)) (le_of_lt (sdepth_lt_succ B hB n))
    · have : d₁ = n + 1 := by omega
      subst this
      exact le_rfl

theorem sdepth_ge_depth (B : Nat) (hB : 2 ≤ B) (d : Nat) : d ≤ sdepth B d := by
  induction d with
  | zero => exact Nat.zero_le _
  | succ n ih =>
    rw [sdepth_succ]
    have : sdepth B n ≤ sdepth B n * B := Nat.le_mul_of_pos_right _ (by omega)
    omega

theorem decodeDepthAux_spec (B slot : Nat) (hB : 2 ≤ B) (d : Nat)
    (hub : slot < sdepth B (d + 1)) :
    ∀ fuel d₀, d₀ ≤ d → (∀ j, d₀ ≤ j → j < d → sdepth B (j + 1) ≤ slot) →
      d + 1 - d₀ ≤ fuel → decodeDepthAux B slot fuel d₀ = d := by
  intro fuel
  induction fuel with
  | zero =>
    intro d₀ h1 h2 h3
    omega
  | succ n ih =>
    intro d₀ h1 h2 h3
    rw [decodeDepthAux]
    rw [slot_id_eq B hB, Nat.add_zero]
    by_cases hcase : d₀ = d
    · subst hcase
      rw [if_pos hub]
    · have hlt : d₀ < d := by omega
      rw [if_neg (by
        push_neg
        exact h2 d₀ le_rfl hlt)]
      exact ih (d₀ + 1) (by omega) (fun j hj1 hj2 => h2 j (by omega) hj2) (by omega)

/-- C6: slot addressing round-trip.  For `B ≥ 2`, depth `d`, and within-depth
index `k < B^d`, the computed slot `slot_id B d k` lies in the half-open slot
range of depth `d` (at least the first slot of depth `d`, strictly below the
first slot of depth `d+1`), and decoding it recovers `d`. -/
theorem c6_slot_roundtrip (B d k : Nat) (hB : 2 ≤ B) (hk : k < B ^ d) :
    slot_id B d 0 ≤ slot_id B d k
    ∧ slot_id B d k < slot_id B (d + 1) 0
    ∧ decodeDepth B (slot_id B d k) = d := by
  have h1 : slot_id B d k = sdepth B d + k := slot_id_eq B hB d k
  have h2 : slot_id B d 0 = sdepth B d := by
    rw [slot_id_eq B hB, Nat.add_zero]
  have h3 : slot_id B (d + 1) 0 = sdepth B (d + 1) := by
    rw [slot_id_eq B hB, Nat.add_zero]
  have hub : slot_id B d k < sdepth B (d + 1) := by
    rw [h1, sdepth_add_pow B hB]
    omega
  refine ⟨by omega, by omega, ?_⟩
  rw [decodeDepth]
  apply decodeDepthAux_spec B _ hB d hub
  · exact Nat.zero_le _
  · intro j hj1 hj2
    have : sdepth B (j + 1) ≤ sdepth B d := sdepth_le_sdepth B hB (by omega)
    omega
  · have hd : d ≤ sdepth B d := sdepth_ge_depth B hB d
    omega

theorem c6_slot_roundtrip_witness :
    slot_id 2 3 5 < slot_id 2 4 0 ∧ decodeDepth 2 (slot_id 2 3 5) = 3 := by
  have h := c6_slot_roundtrip 2 3 5 (by decide) (by decide)
  exact ⟨h.2.1, h.2.2⟩

/-! ### Lemmas about the folder loop -/

theorem getElem?_set_list {α : Type _} (l : List α) (i j : Nat) (a : α) :
    (l.set i a)[j]? = if i = j ∧ i < l.length then some a else l[j]? := by
  induction l generalizing i j with
  | nil => simp
  | cons x rest ih =>
    match i, j with
    | 0, 0 => simp
    | 0, j + 1 => simp
    | i + 1, 0 => simp
    | i + 1, j + 1 =>
      simp only [List.set_cons_succ, List.getElem?_cons_succ, List.length_cons, ih]
      by_cases h : i = j ∧ i < rest.length
      · rw [if_pos h, if_pos (by omega)]
      · rw [if_neg h, if_neg (by omega)]

/-- A successful folder step never changes the tensor's size. -/
theorem processFolder_length (folders : List PipeFolder) (mp : Nat) (LM RM : ℚ)
    (st : PState) (f : PipeFolder) (st' : PState)
    (h : processFolder folders mp LM RM st f = .ok st') :
    st'.features.length = st.features.length := by
  simp only [processFolder] at h
  repeat' split at h
  all_goals cases h
  all_goals try rfl
  simp [List.length_set]

/-- A successful folder step leaves every tensor row unchanged or overwrites
it with a freshly computed row, whose mask is 0 and whose normalized depth and
child-count columns are clamped into `[0, 1]`. -/
theorem processFolder_rows (folders : List PipeFolder) (mp : Nat) (LM RM : ℚ)
    (st : PState) (f : PipeFolder) (st' : PState)
    (h : processFolder folders mp LM RM st f = .ok st') (i : Nat) :
    st'.features[i]? = st.features[i]? ∨
      ∃ row : FRow, st'.features[i]? = some row ∧ row.mask = 0 ∧
        0 ≤ row.depthN ∧ row.depthN ≤ 1 ∧ 0 ≤ row.childrenN ∧ row.childrenN ≤ 1 := by
  simp only [processFolder] at h
  repeat' split at h
  all_goals cases h
  all_goals try (left; rfl)
  rename_i idx hidx
  rw [getElem?_set_list]
  by_cases hcase : idx = i ∧ idx < st.features.length
  · rw [if_pos hcase]
    right
    refine ⟨_, rfl, rfl, ?_, ?_, ?_, ?_⟩
    · positivity
    · rw [div_le_one (by norm_num [MAX_DEPTH])]
      exact_mod_cast Nat.min_le_right _ MAX_DEPTH
    · positivity
    · rw [div_le_one (by norm_num [MAX_CHILDREN])]
      exact_mod_cast Nat.min_le_right _ MAX_CHILDREN
  · rw [if_neg hcase]
    left
    rfl

/-- Row dichotomy across the whole folder loop. -/
theorem processFolders_rows (folders : List PipeFolder) (mp : Nat) (LM RM : ℚ) :
    ∀ (fs : List PipeFolder) (st st' : PState),
      processFolders folders mp LM RM st fs = .ok st' → ∀ i : Nat,
      st'.features[i]? = st.features[i]? ∨
        ∃ row : FRow, st'.features[i]? = some row ∧ row.mask = 0 ∧
          0 ≤ row.depthN ∧ row.depthN ≤ 1 ∧ 0 ≤ row.childrenN ∧ row.childrenN ≤ 1 := by
  intro fs
  induction fs with
  | nil =>
    intro st st' h i
    cases h
    left
    rfl
  | cons f rest ih =>
    intro st st' h i
    rw [processFolders] at h
    split at h
    · cases h
    · rename_i st₁ hstep
      rcases ih st₁ st' h i with h1 | h1
      · rcases processFolder_rows folders mp LM RM st f st₁ hstep i with h2 | h2
        · left
          rw [h1, h2]
        · right
          rw [h1]
          exact h2
      · right
        exact h1

/-- Tensor size across the whole folder loop. -/
theorem processFolders_length (folders : List PipeFolder) (mp : Nat) (LM RM : ℚ) :
    ∀ (fs : List PipeFolder) (st st' : PState),
      processFolders folders mp LM RM st fs = .ok st' →
      st'.features.length = st.features.length := by
  intro fs
  induction fs with
  | nil =>
    intro st st' h
    cases h
    rfl
  | cons f rest ih =>
    intro st st' h
    rw [processFolders] at h
    split at h
    · cases h
    · rename_i st₁ hstep
      rw [ih st₁ st' h, processFolder_length folders mp LM RM st f st₁ hstep]

theorem getElem?_replicate_list {α : Type _} (n : Nat) (a : α) (i : Nat) :
    (List.replicate n a)[i]? = if i < n then some a else none := by
  induction n generalizing i with
  | zero => simp
  | succ m ih =>
    match i with
    | 0 => simp [List.replicate]
    | i + 1 =>
      simp only [List.replicate, List.getElem?_cons_succ, ih]
      by_cases h : i < m
      · rw [if_pos h, if_pos (by omega)]
      · rw [if_neg h, if_neg (by omega)]

theorem mem_iff_getElem?_some {α : Type _} (l : List α) (a : α) :
    a ∈ l ↔ ∃ i : Nat, l[i]? = some a := by
  induction l with
  | nil => simp
  | cons x rest ih =>
    constructor
    · intro h
      rcases List.mem_cons.mp h with h1 | h1
      · exact ⟨0, by simp [h1]⟩
      · obtain ⟨i, hi⟩ := ih.mp h1
        exact ⟨i + 1, by simpa using hi⟩
    · rintro ⟨i, hi⟩
      match i with
      | 0 =>
        simp only [List.getElem?_cons_zero, Option.some.injEq] at hi
        exact hi ▸ List.mem_cons_self x rest
      | i + 1 =>
        simp only [List.getElem?_cons_succ] at hi
        exact List.mem_cons_of_mem x (ih.mpr ⟨i, hi⟩)

/-- Every row of a successful `process_run_folder` result is either the
untouched sentinel row or a row written by a processed record (mask 0, clamped
depth and child-count columns). -/
theorem process_run_folder_rows (run : RunFolder) (LM RM : ℚ) (mp : Option Nat)
    (res : RunResult) (h : process_run_folder run LM RM mp = .ok res) :
    ∀ row ∈ res.features, row = sentinelRow ∨
      (row.mask = 0 ∧ 0 ≤ row.depthN ∧ row.depthN ≤ 1 ∧
        0 ≤ row.childrenN ∧ row.childrenN ≤ 1) := by
  intro row hmem
  simp only [process_run_folder] at h
  split at h
  · cases h
  · rename_i pr htgt
    split at h
    · cases h
    · rename_i st hfold
      cases h
      obtain ⟨i, hi⟩ := (mem_iff_getElem?_some _ _).mp hmem
      rcases processFolders_rows run.folders (mp.getD defaultMaxPipes) LM RM _ _ _ hfold i
        with h1 | h1
      · left
        rw [h1, getElem?_replicate_list] at hi
        split at hi
        · exact (Option.some.injEq _ _).mp hi.symm |>.symm ▸ rfl
        · cases hi
      · right
        obtain ⟨row', hrow', hprops⟩ := h1
        rw [hi] at hrow'
        cases hrow'
        exact hprops

/-- C1: the reconstruction example.  On the run `{0: parent sentinel,
1: parent 0, 2: parent 0}` the child-count scan yields `{0:2, 1:0, 2:0}` as
the claim states, but the parent walk counts the node itself along with every
hop, so the assigned depths are `{0:1, 1:2, 2:2}` — not the claimed
`{0:0, 1:1, 2:1}` (the code's own comment says "hops from root", and the
normalized depth column shows `1/5, 2/5, 2/5` instead of `0, 1/5, 1/5`). -/
theorem c1_depth_vs_childcount :
    walkDepth c1folders "pipe0" "-1" "0" = 1
    ∧ walkDepth c1folders "pipe1" "0" "1" = 2
    ∧ walkDepth c1folders "pipe2" "0" "2" = 2
    ∧ childCount c1folders "0" = 2
    ∧ childCount c1folders "1" = 0
    ∧ childCount c1folders "2" = 0
    ∧ (process_run_folder c1run (1/200) (1/2000) (some 3)).toOption.map
        (fun r => r.features.map FRow.depthN) = some [1/5, 2/5, 2/5]
    ∧ (process_run_folder c1run (1/200) (1/2000) (some 3)).toOption.map
        (fun r => r.features.map FRow.childrenN) = some [1/2, 0, 0]
    ∧ walkDepth c1folders "pipe0" "-1" "0" ≠ 0 := by
  refine ⟨by decide, by decide, by decide, by decide, by decide, by decide, ?_, ?_, by decide⟩
  · simp [process_run_folder, parseTarget, processFolders, processFolder, c1run, c1folders,
      pyFloat?, pyInt?, strReplace, replaceAll, replaceAllGo, pyNatDigits?, digitsToNat,
      splitOnDot, walkDepth, walkAux, childCount, scanReceivers, resolveIdx, globRing,
      strStartsWith, dictFind, sentinelRow, MAX_DEPTH, MAX_CHILDREN]
    exact ⟨_, rfl, by norm_num⟩
  · simp [process_run_folder, parseTarget, processFolders, processFolder, c1run, c1folders,
      pyFloat?, pyInt?, strReplace, replaceAll, replaceAllGo, pyNatDigits?, digitsToNat,
      splitOnDot, walkDepth, walkAux, childCount, scanReceivers, resolveIdx, globRing,
      strStartsWith, dictFind, sentinelRow, MAX_DEPTH, MAX_CHILDREN]
    exact ⟨_, rfl, by norm_num⟩

/-- C10: in every successful run, the normalized depth and child-count columns
(2 and 3) of every row lie in `[0, 1]` because depth and child count are
clamped at `MAX_DEPTH` and `MAX_CHILDREN`; the normalized length column is not
clamped, and a record with length `0.002` processed with `L_MAX = 1/1000`
writes the value 2 > 1. -/
theorem c10_normalization :
    (∀ (run : RunFolder) (LM RM : ℚ) (mp : Option Nat) (res : RunResult),
        process_run_folder run LM RM mp = .ok res →
        ∀ row ∈ res.features,
          (0 ≤ row.depthN ∧ row.depthN ≤ 1) ∧ (0 ≤ row.childrenN ∧ row.childrenN ≤ 1))
    ∧ (process_run_folder c10run (1/1000) (1/10000) (some 1)).toOption.map
        (fun r => r.features.map FRow.lengthN) = some [2]
    ∧ (1 : ℚ) < 2 := by
  refine ⟨?_, ?_, by norm_num⟩
  · intro run LM RM mp res h row hmem
    rcases process_run_folder_rows run LM RM mp res h row hmem with h1 | h1
    · subst h1
      refine ⟨⟨?_, ?_⟩, ?_, ?_⟩ <;> norm_num [sentinelRow]
    · exact ⟨⟨h1.2.1, h1.2.2.1⟩, h1.2.2.2.1, h1.2.2.2.2⟩
  · simp [process_run_folder, parseTarget, processFolders, processFolder, c10run,
      pyFloat?, pyInt?, strReplace, replaceAll, replaceAllGo, pyNatDigits?, digitsToNat,
      splitOnDot, walkDepth, walkAux, childCount, scanReceivers, resolveIdx, globRing,
      strStartsWith, dictFind, sentinelRow, MAX_DEPTH, MAX_CHILDREN]
    exact ⟨_, rfl, by norm_num⟩

theorem c10_normalization_witness :
    0 ≤ sentinelRow.depthN ∧ sentinelRow.depthN ≤ 1 := by
  have h := c10_normalization.1 (RunFolder.mk [] none) 1 1 (some 1)
    ⟨[sentinelRow], -1, 0, []⟩ rfl sentinelRow (List.mem_singleton.mpr rfl)
  exact h.1

/-- C4, counterexample: on a run whose single record names pipe `"-1"` and
whose target names emitter pipe `"-1"`, the emitter identifier *is* among the
processed pipe identifiers (`pipe_to_slot["-1"] = -1`) and yet the returned
label is `-1` — so "label is -1 if and only if the emitter identifier is
absent" fails in the only-if direction. -/
theorem c4_counterexample :
    (process_run_folder c4cexRun 1 1 (some 2)).toOption.map RunResult.yPipeSlot = some (-1)
    ∧ (process_run_folder c4cexRun 1 1 (some 2)).toOption.map
        (fun r => dictFind r.pipeToSlot "-1") = some (some (-1)) := by
  exact ⟨by decide, by decide⟩

/-- C4, amended: every tensor row of a successful run is either the untouched
all-ones sentinel (mask 1) or a row written from a processed record (mask 0);
and for a parsed target record with a non-empty emitter name, the label is the
slot stored for that name when present in `pipe_to_slot` and `-1` when absent.
(The original "label -1 iff absent" fails only because a present pipe's stored
slot can itself be `-1`, as in the counterexample.) -/
theorem c4_amended (run : RunFolder) (LM RM : ℚ) (mp : Option Nat) (res : RunResult)
    (h : process_run_folder run LM RM mp = .ok res) :
    (∀ row ∈ res.features, row = sentinelRow ∨ row.mask = 0)
    ∧ ∀ parts, run.target = some parts → 3 ≤ parts.length → parts.getD 0 "" ≠ "" →
        ((dictFind res.pipeToSlot (parts.getD 0 "") = none → res.yPipeSlot = -1)
         ∧ ∀ s : Int, dictFind res.pipeToSlot (parts.getD 0 "") = some s →
             res.yPipeSlot = s) := by
  constructor
  · intro row hmem
    rcases process_run_folder_rows run LM RM mp res h row hmem with h1 | h1
    · exact Or.inl h1
    · exact Or.inr h1.1
  · intro parts hparts hlen hname
    simp only [process_run_folder, hparts, parseTarget, if_pos hlen] at h
    split at h
    · cases h
    · rename_i pe z hz
      split at hz
      · cases hz
      · cases hz
        split at h
        · cases h
        · rename_i st hfold
          cases h
          dsimp only
          rw [if_neg hname]
          cases hD : dictFind st.pipeToSlot (parts.getD 0 "") with
          | none =>
            exact ⟨fun _ => rfl, fun s' hs' => Option.noConfusion hs'⟩
          | some s =>
            exact ⟨fun h0 => Option.noConfusion h0, fun s' hs' => by cases hs'; rfl⟩

theorem c4_amended_witness :
    sentinelRow = sentinelRow ∨ sentinelRow.mask = 0 := by
  have h := c4_amended (RunFolder.mk [] none) 1 1 (some 1) ⟨[sentinelRow], -1, 0, []⟩ rfl
  exact h.1 sentinelRow (List.mem_singleton.mpr rfl)

/-- C9, counterexample: a record whose pipe identifier does not parse to an
integer is *not* always skipped — the source parses the length and radius
fields first, so a record whose floats are also malformed aborts the whole run
with a `ValueError` instead of being skipped. -/
theorem c9_counterexample :
    pyInt? (strReplace "abc" "pipe" "") = none
    ∧ process_run_folder c9cexRun 1 1 (some 1) = .error "ValueError: float" := by
  exact ⟨by decide, rfl⟩

/-- Totality of the folder loop when every record either has fewer than 5
fields or parses its float fields and keeps any parsed slot at least
`-max_pipes`. -/
theorem processFolders_total (folders : List PipeFolder) (mp : Nat) (LM RM : ℚ) :
    ∀ (fs : List PipeFolder) (st : PState),
      (∀ f ∈ fs, ∀ fields, f.simData = some fields →
        fields.length < 5
        ∨ ((pyFloat? (fields.getD 2 "")).isSome ∧ (pyFloat? (fields.getD 3 "")).isSome
           ∧ ∀ k : Int, pyInt? (strReplace (fields.getD 0 "") "pipe" "") = some k →
               -(mp : Int) ≤ k)) →
      st.features.length = mp →
      ∃ st', processFolders folders mp LM RM st fs = .ok st' := by
  intro fs
  induction fs with
  | nil =>
    intro st _ _
    exact ⟨st, rfl⟩
  | cons f rest ih =>
    intro st hcond hlen
    have hrest : ∀ f' ∈ rest, ∀ fields, f'.simData = some fields →
        fields.length < 5
        ∨ ((pyFloat? (fields.getD 2 "")).isSome ∧ (pyFloat? (fields.getD 3 "")).isSome
           ∧ ∀ k : Int, pyInt? (strReplace (fields.getD 0 "") "pipe" "") = some k →
               -(mp : Int) ≤ k) :=
      fun f' hf' => hcond f' (List.mem_cons_of_mem f hf')
    have hstep : ∃ st₁, processFolder folders mp LM RM st f = .ok st₁ := by
      cases hpf : processFolder folders mp LM RM st f with
      | ok st₁ => exact ⟨st₁, rfl⟩
      | error e =>
        exfalso
        cases hsim : f.simData with
        | none =>
          simp only [processFolder, hsim] at hpf
          exact Except.noConfusion hpf
        | some fields =>
          have hc := hcond f (List.mem_cons_self f rest) fields hsim
          by_cases h5 : fields.length < 5
          · simp only [processFolder, hsim, if_pos h5] at hpf
            exact Except.noConfusion hpf
          · rcases hc with h5' | ⟨hf2, hf3, hk⟩
            · exact h5 h5'
            · obtain ⟨q2, hq2⟩ := Option.isSome_iff_exists.mp hf2
              obtain ⟨q3, hq3⟩ := Option.isSome_iff_exists.mp hf3
              cases hint : pyInt? (strReplace (fields.getD 0 "") "pipe" "") with
              | none =>
                simp only [processFolder, hsim, if_neg h5, hq2, hq3, hint] at hpf
                exact Except.noConfusion hpf
              | some k =>
                by_cases hge : (mp : Int) ≤ k
                · simp only [processFolder, hsim, if_neg h5, hq2, hq3, hint,
                    if_pos hge] at hpf
                  exact Except.noConfusion hpf
                · have hlb : -(mp : Int) ≤ k := hk k hint
                  have hres : resolveIdx st.features.length k =
                      some (if 0 ≤ k then k.toNat else mp - k.natAbs) := by
                    rw [resolveIdx, hlen]
                    by_cases h0 : 0 ≤ k
                    · rw [if_pos h0, if_pos (by omega), if_pos h0]
                    · rw [if_neg h0, if_pos (by omega), if_neg h0]
                  simp only [processFolder, hsim, if_neg h5, hq2, hq3, hint,
                    if_neg hge, hres] at hpf
                  exact Except.noConfusion hpf
    obtain ⟨st₁, hst₁⟩ := hstep
    have hlen₁ : st₁.features.length = mp := by
      rw [processFolder_length folders mp LM RM st f st₁ hst₁]
      exact hlen
    obtain ⟨st', hst'⟩ := ih st₁ hrest hlen₁
    refine ⟨st', ?_⟩
    rw [processFolders, hst₁]
    exact hst'

/-- C9, amended: each of the three conditions — fewer than 5 fields, an
unparsable pipe identifier, a slot at least `max_pipes` — makes the record a
no-op (state unchanged) *provided the record's float fields parse* (the source
parses `float(fields[2])`, `float(fields[3])` before trying the identifier, so
a record failing that parse aborts the run instead, which the caller catches
per-run); and a run whose records all satisfy this proviso (with any parsed
slot at least `-max_pipes`, negative indices beyond that raise `IndexError`)
is processed to a result without aborting. -/
theorem c9_amended :
    (∀ (folders : List PipeFolder) (mp : Nat) (LM RM : ℚ) (st : PState)
        (dirname : String) (fields : List String) (recs : List RecFile),
        (fields.length < 5
         ∨ ((pyFloat? (fields.getD 2 "")).isSome ∧ (pyFloat? (fields.getD 3 "")).isSome
            ∧ (pyInt? (strReplace (fields.getD 0 "") "pipe" "") = none
               ∨ ∃ k : Int, pyInt? (strReplace (fields.getD 0 "") "pipe" "") = some k
                   ∧ (mp : Int) ≤ k))) →
        processFolder folders mp LM RM st ⟨dirname, some fields, recs⟩ = .ok st)
    ∧ (∀ (run : RunFolder) (LM RM : ℚ) (mp? : Option Nat),
        (∀ f ∈ run.folders, ∀ fields, f.simData = some fields →
          fields.length < 5
          ∨ ((pyFloat? (fields.getD 2 "")).isSome ∧ (pyFloat? (fields.getD 3 "")).isSome
             ∧ ∀ k : Int, pyInt? (strReplace (fields.getD 0 "") "pipe" "") = some k →
                 -((mp?.getD defaultMaxPipes : Nat) : Int) ≤ k)) →
        (∀ parts, run.target = some parts → 3 ≤ parts.length →
          (pyFloat? (parts.getD 2 "")).isSome) →
        ∃ res, process_run_folder run LM RM mp? = .ok res) := by
  constructor
  · intro folders mp LM RM st dirname fields recs hcond
    by_cases h5 : fields.length < 5
    · simp only [processFolder, if_pos h5]
    · rcases hcond with h5' | ⟨hf2, hf3, hint⟩
      · exact absurd h5' h5
      · obtain ⟨q2, hq2⟩ := Option.isSome_iff_exists.mp hf2
        obtain ⟨q3, hq3⟩ := Option.isSome_iff_exists.mp hf3
        rcases hint with hnone | ⟨k, hk, hge⟩
        · simp only [processFolder, if_neg h5, hq2, hq3, hnone]
        · simp only [processFolder, if_neg h5, hq2, hq3, hk, if_pos hge]
  · intro run LM RM mp? hcond htgt
    have hfilter : ∀ f ∈ run.folders.filter (fun f => strStartsWith f.dirname "pipe"),
        ∀ fields, f.simData = some fields →
        fields.length < 5
        ∨ ((pyFloat? (fields.getD 2 "")).isSome ∧ (pyFloat? (fields.getD 3 "")).isSome
           ∧ ∀ k : Int, pyInt? (strReplace (fields.getD 0 "") "pipe" "") = some k →
               -((mp?.getD defaultMaxPipes : Nat) : Int) ≤ k) :=
      fun f hf => hcond f (List.mem_of_mem_filter hf)
    obtain ⟨st', hst'⟩ := processFolders_total run.folders (mp?.getD defaultMaxPipes) LM RM
      (run.folders.filter (fun f => strStartsWith f.dirname "pipe"))
      ⟨List.replicate (mp?.getD defaultMaxPipes) sentinelRow, []⟩ hfilter
      (by simp [List.length_replicate])
    cases hres : process_run_folder run LM RM mp? with
    | ok r => exact ⟨r, rfl⟩
    | error e =>
      exfalso
      cases htarget : run.target with
      | none =>
        simp only [process_run_folder, htarget, parseTarget, hst'] at hres
        exact Except.noConfusion hres
      | some parts =>
        by_cases hlen3 : 3 ≤ parts.length
        · obtain ⟨z, hz⟩ := Option.isSome_iff_exists.mp (htgt parts htarget hlen3)
          simp only [process_run_folder, htarget, parseTarget, if_pos hlen3, hz,
            hst'] at hres
          exact Except.noConfusion hres
        · simp only [process_run_folder, htarget, parseTarget, if_neg hlen3, hst'] at hres
          exact Except.noConfusion hres

theorem c9_amended_witness :
    processFolder [] 1 1 1 ⟨[sentinelRow], []⟩ ⟨"pipe0", some ["1", "2"], []⟩
      = .ok ⟨[sentinelRow], []⟩
    ∧ ∃ res, process_run_folder c9okRun (1/1000) (1/10000) (some 2) = .ok res := by
  constructor
  · exact c9_amended.1 [] 1 1 1 ⟨[sentinelRow], []⟩ "pipe0" ["1", "2"] [] (Or.inl (by decide))
  · refine c9_amended.2 c9okRun (1/1000) (1/10000) (some 2) ?_ ?_
    · intro f hf fields hfields
      fin_cases hf
      · cases hfields
        right
        refine ⟨by decide, by decide, ?_⟩
        intro k hk
        rw [show pyInt? (strReplace (["0", "-1", "0.001", "0.0001", "0"].getD 0 "") "pipe" "")
            = some 0 from by decide] at hk
        cases hk
        decide
      · cases hfields
        left
        decide
      · cases hfields
        right
        refine ⟨by decide, by decide, ?_⟩
        intro k hk
        rw [show pyInt? (strReplace (["abc", "0", "0.001", "0.0001", "0"].getD 0 "") "pipe" "")
            = none from by decide] at hk
        cases hk
      · cases hfields
        right
        refine ⟨by decide, by decide, ?_⟩
        intro k hk
        rw [show pyInt? (strReplace (["7", "0", "0.001", "0.0001", "0"].getD 0 "") "pipe" "")
            = some 7 from by decide] at hk
        cases hk
        decide
    · intro parts h
      simp [c9okRun] at h

/-! ### Lemmas about `modifyIdx` and the builder -/

theorem modifyIdx_length {α : Type _} (l : List α) (i : Nat) (g : α → α) :
    (modifyIdx l i g).length = l.length := by
  rw [modifyIdx]
  cases h : l[i]? with
  | none => rfl
  | some x => simp [List.length_set]

theorem getElem?_modifyIdx {α : Type _} (l : List α) (i j : Nat) (g : α → α) :
    (modifyIdx l i g)[j]? = if i = j then l[j]?.map g else l[j]? := by
  rw [modifyIdx]
  cases h : l[i]? with
  | none =>
    by_cases hij : i = j
    · subst hij
      rw [if_pos rfl, h]
      rfl
    · rw [if_neg hij]
  | some x =>
    rw [getElem?_set_list]
    by_cases hij : i = j
    · subst hij
      have hlt : i < l.length := by
        by_contra hcon
        rw [List.getElem?_eq_none (by omega)] at h
        cases h
      rw [if_pos ⟨rfl, hlt⟩, if_pos rfl, h]
      rfl
    · rw [if_neg (by tauto), if_neg hij]

theorem modifyIdx_cons_succ {α : Type _} (x : α) (rest : List α) (i : Nat) (g : α → α) :
    modifyIdx (x :: rest) (i + 1) g = x :: modifyIdx rest i g := by
  rw [modifyIdx, modifyIdx]
  simp only [List.getElem?_cons_succ]
  cases h : rest[i]? with
  | none => rfl
  | some y => rfl

theorem modifyIdx_cons_zero {α : Type _} (x : α) (rest : List α) (g : α → α) :
    modifyIdx (x :: rest) 0 g = g x :: rest := by
  rw [modifyIdx]
  simp

/-- If every queued entry already sits at depth ≥ `maxDepth`, the while loop
only drains the queue and creates nothing. -/
theorem buildLoop_allDeep (B maxDepth : Nat) (draws : Nat → Fin (B + 1))
    (lens rads : Nat → ℚ) :
    ∀ (fuel t : Nat) (pipes : List TPipe) (q : List QEntry),
      (∀ e ∈ q, maxDepth ≤ e.depth) →
      buildLoop B maxDepth draws lens rads fuel t pipes q = pipes := by
  intro fuel
  induction fuel with
  | zero =>
    intro t pipes q _
    cases q with
    | nil => rfl
    | cons e rest => rfl
  | succ n ih =>
    intro t pipes q hq
    cases q with
    | nil => rfl
    | cons e rest =>
      rw [buildLoop, if_pos (hq e (List.mem_cons_self e rest))]
      exact ih t pipes rest (fun e' he' => hq e' (List.mem_cons_of_mem e he'))

/-- With `max_depth = 0` the generated tree is exactly the root plus its
first-level children: the BFS loop never expands anything. -/
theorem buildTree_maxDepth_zero (B : Nat) (rootDraw : Fin B) (draws : Nat → Fin (B + 1))
    (lens rads : Nat → ℚ) (flowValue : ℚ) :
    buildTree B 0 rootDraw draws lens rads flowValue =
      (⟨0, lens 0, rads 0, [],
          (List.range (rootDraw.val + 1)).map (fun k => NName.pipe (slot_id B 1 k)),
          flowValue, [], [], 0, 0⟩ : TPipe)
        :: (List.range (rootDraw.val + 1)).map (fun k =>
            mkChildPipe lens rads (1 + k) (slot_id B 1 k) 0 1) := by
  rw [buildTree]
  exact buildLoop_allDeep B 0 draws lens rads _ 0 _ _ (fun e _ => Nat.zero_le _)

theorem setUniformFlow_length (v : ℚ) (l : List TPipe) :
    (setUniformFlow v l).length = l.length := by
  simp [setUniformFlow]

theorem placeEmitter_length (l : List TPipe) (i : Nat) (ez er etheta : ℚ) (ep : Nat) :
    (placeEmitter l i ez er etheta ep).length = l.length := by
  rw [placeEmitter, modifyIdx_length]

theorem totalEmitters_setUniformFlow (v : ℚ) (l : List TPipe) :
    totalEmitters (setUniformFlow v l) = totalEmitters l := by
  rw [totalEmitters, setUniformFlow, totalEmitters, List.map_map]
  rfl

theorem totalEmitters_placeEmitter (l : List TPipe) (i : Nat) (ez er etheta : ℚ) (ep : Nat)
    (h : i < l.length) :
    totalEmitters (placeEmitter l i ez er etheta ep) = totalEmitters l + 1 := by
  induction l generalizing i with
  | nil => simp at h
  | cons x rest ih =>
    match i with
    | 0 =>
      rw [placeEmitter, modifyIdx_cons_zero]
      simp [totalEmitters]
      omega
    | i + 1 =>
      rw [placeEmitter, modifyIdx_cons_succ]
      have := ih i (by simpa using Nat.lt_of_succ_lt_succ h)
      rw [placeEmitter] at this
      simp only [totalEmitters, List.map_cons, List.sum_cons] at *
      omega

/-- Processing a list of receiver-free leaves: each gets exactly one sink and
one receiver, and the counters advance in lockstep. -/
theorem attachSinks_leaves (th : ℚ) :
    ∀ (cs : List TPipe) (sc ri : Nat),
      (∀ p ∈ cs, p.right_connections = [] ∧ p.receivers = []) →
      (attachSinks th cs sc ri).1.length = cs.length
      ∧ (attachSinks th cs sc ri).2.length = cs.length
      ∧ (∀ p ∈ (attachSinks th cs sc ri).1,
          p.receivers.length = 1 ∧ ∃ s, p.right_connections = [NName.sink s])
      ∧ totalEmitters (attachSinks th cs sc ri).1 = totalEmitters cs := by
  intro cs
  induction cs with
  | nil =>
    intro sc ri _
    refine ⟨rfl, rfl, ?_, rfl⟩
    intro p hp
    simp [attachSinks] at hp
  | cons p rest ih =>
    intro sc ri hcond
    have hp := hcond p (List.mem_cons_self p rest)
    have hrest := fun p' hp' => hcond p' (List.mem_cons_of_mem p hp')
    obtain ⟨ih1, ih2, ih3, ih4⟩ := ih (sc + 1) (ri + 1) hrest
    rw [attachSinks, if_pos hp.1]
    refine ⟨?_, ?_, ?_, ?_⟩
    · simp [ih1]
    · simp [ih2]
    · intro p' hp'
      rcases List.mem_cons.mp hp' with h1 | h1
      · subst h1
        refine ⟨?_, ⟨sc + 1, ?_⟩⟩
        · simp [hp.2]
        · simp [hp.1]
      · exact ih3 p' h1
    · simp only [totalEmitters, List.map_cons, List.sum_cons] at *
      omega

/-- A pipe whose `right_connections` are non-empty passes through `attachSinks`
unchanged at the head. -/
theorem attachSinks_cons_ne (th : ℚ) (p : TPipe) (rest : List TPipe) (sc ri : Nat)
    (h : p.right_connections ≠ []) :
    attachSinks th (p :: rest) sc ri =
      (p :: (attachSinks th rest sc ri).1, (attachSinks th rest sc ri).2) := by
  rw [attachSinks, if_neg h]

theorem totalEmitters_eq_zero (l : List TPipe) (h : ∀ p ∈ l, p.emitters = []) :
    totalEmitters l = 0 := by
  induction l with
  | nil => rfl
  | cons p rest ih =>
    simp only [totalEmitters, List.map_cons, List.sum_cons]
    rw [h p (List.mem_cons_self p rest)]
    simp only [List.length_nil, Nat.zero_add]
    exact ih (fun q hq => h q (List.mem_cons_of_mem p hq))

theorem mem_modifyIdx {α : Type _} (l : List α) (i : Nat) (g : α → α) (a : α)
    (h : a ∈ modifyIdx l i g) :
    a ∈ l ∨ ∃ x, l[i]? = some x ∧ a = g x := by
  rw [modifyIdx] at h
  cases hx : l[i]? with
  | none =>
    rw [hx] at h
    exact Or.inl h
  | some x =>
    rw [hx] at h
    rcases List.mem_or_eq_of_mem_set h with h1 | h1
    · exact Or.inl h1
    · exact Or.inr ⟨x, rfl, h1⟩

/-- Invariant run of the while loop for the depth bound: if every queued entry
snapshots the depth of the pipe it points to, and every existing pipe at depth
≥ `maxDepth` has no right connections, the same holds of every pipe the loop
returns (children are only attached below `maxDepth`). -/
theorem buildLoop_no_children_at_max (B maxD : Nat) (draws : Nat → Fin (B + 1))
    (lens rads : Nat → ℚ) :
    ∀ (fuel t : Nat) (pipes : List TPipe) (q : List QEntry),
      (∀ e ∈ q, ∃ p, pipes[e.idx]? = some p ∧ p.depth = e.depth) →
      (∀ p ∈ pipes, maxD ≤ p.depth → p.right_connections = []) →
      ∀ p ∈ buildLoop B maxD draws lens rads fuel t pipes q,
        maxD ≤ p.depth → p.right_connections = [] := by
  intro fuel
  induction fuel with
  | zero =>
    intro t pipes q hF hZ
    cases q with
    | nil => exact hZ
    | cons e rest => exact hZ
  | succ n ih =>
    intro t pipes q hF hZ
    cases q with
    | nil => exact hZ
    | cons e rest =>
      by_cases hd : maxD ≤ e.depth
      · intro p hp
        rw [buildLoop, if_pos hd] at hp
        exact ih t pipes rest (fun e' he' => hF e' (List.mem_cons_of_mem e he')) hZ p hp
      · intro p hp
        rw [buildLoop, if_neg hd] at hp
        refine ih (t + 1) _ _ ?_ ?_ p hp
        · -- queue invariant for the new state
          intro e' he'
          rcases List.mem_append.mp he' with h1 | h1
          · obtain ⟨px, hpx, hdx⟩ := hF e' (List.mem_cons_of_mem e h1)
            have hidx : e'.idx < pipes.length := by
              by_contra hcon
              rw [List.getElem?_eq_none (by omega)] at hpx
              cases hpx
            rw [List.getElem?_append, modifyIdx_length, if_pos hidx]
            rw [getElem?_modifyIdx]
            by_cases hij : e.idx = e'.idx
            · rw [if_pos hij, ← hij]
              rw [hij, hpx]
              exact ⟨_, rfl, hdx⟩
            · rw [if_neg hij, hpx]
              exact ⟨px, rfl, hdx⟩
          · obtain ⟨k, hk, hke⟩ := List.mem_map.mp h1
            subst hke
            dsimp only
            have hkc : k < (draws t).val := List.mem_range.mp hk
            refine ⟨mkChildPipe lens rads (pipes.length + k) (childSlot B e k) e.slot
              (e.depth + 1), ?_, rfl⟩
            rw [List.getElem?_append, modifyIdx_length, if_neg (by omega)]
            have hsub : pipes.length + k - pipes.length = k := by omega
            rw [hsub, List.getElem?_map, List.getElem?_range hkc]
            rfl
        · -- depth bound for the new pipes
          intro p' hp' hdp'
          rcases List.mem_append.mp hp' with h1 | h1
          · rcases mem_modifyIdx _ _ _ _ h1 with h2 | ⟨x, hx, hgx⟩
            · exact hZ p' h2 hdp'
            · obtain ⟨px, hpx, hdx⟩ := hF e (List.mem_cons_self e rest)
              rw [hpx] at hx
              cases hx
              subst hgx
              exfalso
              simp only at hdp'
              omega
          · obtain ⟨k, hk, hke⟩ := List.mem_map.mp h1
            subst hke
            rfl

/-- C8, counterexample: invoked with max depth 0, the generator does *not*
produce a root-only network — the first-level loop gives the root
`randint(1, max_branches)` children before the depth check is ever consulted,
so the network has at least two pipes. -/
theorem c8_counterexample :
    (genTreeRing 2 0 (0 : Fin 2) (fun _ => (0 : Fin 3)) (fun _ => 1) (fun _ => 1)
      7 0 0 0 0 500 (1/2)).1.length = 2 := by
  decide

/-- C8, amended: nodes expanded from the BFS queue receive no children once
their depth reaches max depth (for max depth ≥ 1 no pipe at max depth has any
right connection), but the root always receives `randint(1, B)` children
regardless of max depth; with max depth 0 the network is the root plus its
1..B children, it still receives exactly one emitter, and every leaf (each of
the root's children) receives exactly one sink/receiver pair while the root
(no longer a leaf) receives none. -/
theorem c8_amended :
    (∀ (B maxD : Nat) (rootDraw : Fin B) (draws : Nat → Fin (B + 1))
        (lens rads : Nat → ℚ) (flowv : ℚ), 1 ≤ maxD →
        ∀ p ∈ buildTree B maxD rootDraw draws lens rads flowv,
          maxD ≤ p.depth → p.right_connections = [])
    ∧ (∀ (B : Nat) (rootDraw : Fin B) (draws : Nat → Fin (B + 1)) (lens rads : Nat → ℚ)
        (flowv : ℚ) (eidx : Nat) (ez er etheta : ℚ) (epat : Nat) (th : ℚ),
        eidx < rootDraw.val + 2 →
        ∃ r cs,
          (genTreeRing B 0 rootDraw draws lens rads flowv eidx ez er etheta epat th).1
            = r :: cs
          ∧ cs.length = rootDraw.val + 1
          ∧ 1 ≤ rootDraw.val + 1 ∧ rootDraw.val + 1 ≤ B
          ∧ totalEmitters (r :: cs) = 1
          ∧ (genTreeRing B 0 rootDraw draws lens rads flowv eidx ez er etheta epat th).2.length
              = rootDraw.val + 1
          ∧ r.receivers = []
          ∧ ∀ p ∈ cs, p.receivers.length = 1 ∧ ∃ s, p.right_connections = [NName.sink s]) := by
  constructor
  · intro B maxD rootDraw draws lens rads flowv hmaxD p hp hdp
    rw [buildTree] at hp
    refine buildLoop_no_children_at_max B maxD draws lens rads _ 0 _ _ ?_ ?_ p hp hdp
    · intro e he
      obtain ⟨k, hk, hke⟩ := List.mem_map.mp he
      subst hke
      dsimp only
      refine ⟨mkChildPipe lens rads (1 + k) (slot_id B 1 k) 0 1, ?_, rfl⟩
      have h1k : 1 + k = k + 1 := by omega
      rw [h1k, List.getElem?_cons_succ, List.getElem?_map,
        List.getElem?_range (List.mem_range.mp hk)]
      simp [Nat.add_comm 1 k]
    · intro p' hp' hdp'
      rcases List.mem_cons.mp hp' with h1 | h1
      · subst h1
        simp only at hdp'
        omega
      · obtain ⟨k, hk, hke⟩ := List.mem_map.mp h1
        subst hke
        rfl
  · intro B rootDraw draws lens rads flowv eidx ez er etheta epat th heidx
    have hbt := buildTree_maxDepth_zero B rootDraw draws lens rads flowv
    have hlen1 : (setUniformFlow flowv (buildTree B 0 rootDraw draws lens rads flowv)).length
        = rootDraw.val + 2 := by
      rw [setUniformFlow_length, hbt]
      simp
    have hlen2 : (placeEmitter (setUniformFlow flowv
        (buildTree B 0 rootDraw draws lens rads flowv)) eidx ez er etheta epat).length
        = rootDraw.val + 2 := by
      rw [placeEmitter_length, hlen1]
    have hz : totalEmitters (buildTree B 0 rootDraw draws lens rads flowv) = 0 := by
      apply totalEmitters_eq_zero
      intro p hp
      rw [hbt] at hp
      rcases List.mem_cons.mp hp with h1 | h1
      · subst h1
        rfl
      · obtain ⟨k, hk, hke⟩ := List.mem_map.mp h1
        subst hke
        rfl
    have hem1 : totalEmitters (placeEmitter (setUniformFlow flowv
        (buildTree B 0 rootDraw draws lens rads flowv)) eidx ez er etheta epat) = 1 := by
      rw [totalEmitters_placeEmitter _ _ _ _ _ _ (by rw [hlen1]; omega),
        totalEmitters_setUniformFlow, hz]
    have h0 : (setUniformFlow flowv (buildTree B 0 rootDraw draws lens rads flowv))[0]?
        = some (⟨0, lens 0, rads 0, [],
            (List.range (rootDraw.val + 1)).map (fun k => NName.pipe (slot_id B 1 k)),
            flowv, [], [], 0, 0⟩ : TPipe) := by
      rw [setUniformFlow, List.getElem?_map, hbt, List.getElem?_cons_zero,
        Option.map_some']
    have hne : ((List.range (rootDraw.val + 1)).map
        (fun k => NName.pipe (slot_id B 1 k))) ≠ [] := by
      simp
    have hhead : ∀ r₂, (placeEmitter (setUniformFlow flowv
        (buildTree B 0 rootDraw draws lens rads flowv)) eidx ez er etheta epat)[0]?
          = some r₂ →
        r₂.right_connections ≠ [] ∧ r₂.receivers = [] := by
      intro r₂ hr
      rw [placeEmitter, getElem?_modifyIdx] at hr
      by_cases he : eidx = 0
      · rw [if_pos he, h0] at hr
        simp only [Option.map_some'] at hr
        cases hr
        exact ⟨hne, rfl⟩
      · rw [if_neg he, h0] at hr
        cases hr
        exact ⟨hne, rfl⟩
    have htail : ∀ (j : Nat) (p : TPipe),
        (placeEmitter (setUniformFlow flowv
          (buildTree B 0 rootDraw draws lens rads flowv)) eidx ez er etheta epat)[j + 1]?
          = some p →
        p.right_connections = [] ∧ p.receivers = [] := by
      intro j p hp
      rw [placeEmitter, getElem?_modifyIdx] at hp
      have hl1 : ∀ q : TPipe,
          (setUniformFlow flowv (buildTree B 0 rootDraw draws lens rads flowv))[j + 1]?
            = some q →
          q.right_connections = [] ∧ q.receivers = [] := by
        intro q hq
        rw [setUniformFlow, List.getElem?_map, hbt, List.getElem?_cons_succ,
          List.getElem?_map] at hq
        cases hr : (List.range (rootDraw.val + 1))[j]? with
        | none =>
          rw [hr] at hq
          cases hq
        | some k =>
          rw [hr] at hq
          simp only [Option.map_some'] at hq
          cases hq
          exact ⟨rfl, rfl⟩
      by_cases he : eidx = j + 1
      · rw [if_pos he] at hp
        cases hq : (setUniformFlow flowv
            (buildTree B 0 rootDraw draws lens rads flowv))[j + 1]? with
        | none =>
          rw [hq] at hp
          cases hp
        | some q =>
          rw [hq] at hp
          simp only [Option.map_some'] at hp
          cases hp
          exact hl1 q hq
      · rw [if_neg he] at hp
        exact hl1 p hp
    cases hl2 : placeEmitter (setUniformFlow flowv
        (buildTree B 0 rootDraw draws lens rads flowv)) eidx ez er etheta epat with
    | nil =>
      rw [hl2] at hlen2
      simp at hlen2
    | cons r₂ cs₂ =>
      rw [hl2] at hem1
      have hr₂ := hhead r₂ (by rw [hl2]; simp)
      have hcslen : cs₂.length = rootDraw.val + 1 := by
        rw [hl2] at hlen2
        simp at hlen2
        omega
      have hcs : ∀ p ∈ cs₂, p.right_connections = [] ∧ p.receivers = [] := by
        intro p hp
        obtain ⟨j, hj⟩ := (mem_iff_getElem?_some cs₂ p).mp hp
        exact htail j p (by rw [hl2, List.getElem?_cons_succ]; exact hj)
      obtain ⟨a1, a2, a3, a4⟩ := attachSinks_leaves th cs₂ 0 1 hcs
      have hgen : genTreeRing B 0 rootDraw draws lens rads flowv eidx ez er etheta epat th
          = (r₂ :: (attachSinks th cs₂ 0 1).1, (attachSinks th cs₂ 0 1).2) := by
        simp only [genTreeRing]
        rw [hl2, attachSinks_cons_ne th r₂ cs₂ 0 1 hr₂.1]
      refine ⟨r₂, (attachSinks th cs₂ 0 1).1, ?_, ?_, ?_, ?_, ?_, ?_, ?_, ?_⟩
      · rw [hgen]
      · rw [a1, hcslen]
      · omega
      · have := rootDraw.isLt
        omega
      · simp only [totalEmitters, List.map_cons, List.sum_cons] at hem1 ⊢
        have ha4 : ((attachSinks th cs₂ 0 1).1.map (fun p => p.emitters.length)).sum
            = (cs₂.map (fun p => p.emitters.length)).sum := a4
        omega
      · rw [hgen]
        exact a2.trans hcslen
      · exact hr₂.2
      · exact a3

/-- Witness for `c8_amended`: with `B = 2`, max depth 1, the depth-1 child of
the root has no right connections; and with max depth 0 the concrete generated
network is a root plus one child with one emitter and one sink. -/
theorem c8_amended_witness :
    ((⟨1, 1, 1, [NName.pipe 0], [], 0, [], [], 1, 1⟩ : TPipe).right_connections = [])
    ∧ ∃ r cs,
        (genTreeRing 2 0 (0 : Fin 2) (fun _ => (0 : Fin 3)) (fun _ => 1) (fun _ => 1) 7
          0 0 0 0 500 (1/2)).1 = r :: cs
        ∧ cs.length = 1
        ∧ 1 ≤ 1 ∧ 1 ≤ 2
        ∧ totalEmitters (r :: cs) = 1
        ∧ (genTreeRing 2 0 (0 : Fin 2) (fun _ => (0 : Fin 3)) (fun _ => 1) (fun _ => 1) 7
            0 0 0 0 500 (1/2)).2.length = 1
        ∧ r.receivers = []
        ∧ ∀ p ∈ cs, p.receivers.length = 1 ∧ ∃ s, p.right_connections = [NName.sink s] := by
  constructor
  · refine c8_amended.1 2 1 (0 : Fin 2) (fun _ => (0 : Fin 3)) (fun _ => 1) (fun _ => 1) 7
      (by decide) _ ?_ (by decide)
    have heq : buildTree 2 1 (0 : Fin 2) (fun _ => (0 : Fin 3)) (fun _ => 1) (fun _ => 1) 7
        = [⟨0, 1, 1, [], [NName.pipe 1], 7, [], [], 0, 0⟩,
           ⟨1, 1, 1, [NName.pipe 0], [], 0, [], [], 1, 1⟩] := rfl
    rw [heq]
    exact List.mem_cons_of_mem _ (List.mem_cons_self _ _)
  · exact c8_amended.2 2 (0 : Fin 2) (fun _ => (0 : Fin 3)) (fun _ => 1) (fun _ => 1) 7 0
      0 0 0 500 (1/2) (by decide)

theorem qkey_lb (B : Nat) (e : QEntry) : sdepth B (e.depth + 1) ≤ qkey B e := by
  rw [qkey]
  omega

theorem childSlot_eq (B : Nat) (hB : 2 ≤ B) (e : QEntry) (k : Nat) :
    childSlot B e k = qkey B e + k := by
  rw [childSlot, slot_id_eq B hB, slot_id_eq B hB, qkey]
  simp only [Nat.add_zero]
  omega

theorem qkey_bounds (B : Nat) (hB : 2 ≤ B) (e : QEntry)
    (h1 : sdepth B e.depth ≤ e.slot) (h2 : e.slot < sdepth B (e.depth + 1)) :
    sdepth B (e.depth + 1) ≤ qkey B e ∧ qkey B e + B ≤ sdepth B (e.depth + 1 + 1) := by
  have hsp := sdepth_add_pow B hB e.depth
  have hsp1 := sdepth_add_pow B hB (e.depth + 1)
  have hm : B * (e.slot - sdepth B e.depth) + B ≤ B ^ (e.depth + 1) := by
    have h3 : B * (e.slot - sdepth B e.depth) + B
        = B * (e.slot - sdepth B e.depth + 1) := by ring
    have h4 : B * (e.slot - sdepth B e.depth + 1) ≤ B * B ^ e.depth :=
      Nat.mul_le_mul_left _ (by omega)
    have h5 : B * B ^ e.depth = B ^ (e.depth + 1) := (pow_succ' B e.depth).symm
    omega
  rw [qkey]
  omega

theorem qkey_child_ge (B : Nat) (e : QEntry) (i k : Nat) :
    sdepth B (e.depth + 1 + 1) ≤ qkey B (⟨i, childSlot B e k, e.depth + 1⟩ : QEntry) := by
  show sdepth B (e.depth + 1 + 1)
      ≤ sdepth B (e.depth + 1 + 1) + B * (childSlot B e k - sdepth B (e.depth + 1))
  omega

theorem qkey_same_depth_le (B : Nat) (hB : 2 ≤ B) (e a : QEntry) (i k : Nat)
    (hd : a.depth = e.depth)
    (ha1 : sdepth B a.depth ≤ a.slot) (ha2 : a.slot < sdepth B (a.depth + 1)) :
    qkey B a + B ≤ qkey B (⟨i, childSlot B e k, e.depth + 1⟩ : QEntry) := by
  have hb := (qkey_bounds B hB a ha1 ha2).2
  rw [hd] at hb
  exact le_trans hb (qkey_child_ge B e i k)

theorem qkey_up_depth_le (B : Nat) (hB : 2 ≤ B) (e a : QEntry) (i k : Nat)
    (hd : a.depth = e.depth + 1)
    (ha1 : sdepth B a.depth ≤ a.slot)
    (hafr : a.slot < qkey B e) :
    qkey B a + B ≤ qkey B (⟨i, childSlot B e k, e.depth + 1⟩ : QEntry) := by
  show sdepth B (a.depth + 1) + B * (a.slot - sdepth B a.depth) + B
      ≤ sdepth B (e.depth + 1 + 1) + B * (childSlot B e k - sdepth B (e.depth + 1))
  rw [hd] at ha1 ⊢
  rw [childSlot_eq B hB]
  have hq : sdepth B (e.depth + 1) ≤ qkey B e := qkey_lb B e
  have h2 : qkey B e + k - sdepth B (e.depth + 1)
      = (qkey B e - sdepth B (e.depth + 1)) + k := by omega
  rw [h2]
  have hz : a.slot - sdepth B (e.depth + 1) + 1
      ≤ qkey B e - sdepth B (e.depth + 1) := by omega
  have hmm := Nat.mul_le_mul_left B
    (show a.slot - sdepth B (e.depth + 1) + 1
        ≤ (qkey B e - sdepth B (e.depth + 1)) + k from by omega)
  have hexp : B * (a.slot - sdepth B (e.depth + 1) + 1)
      = B * (a.slot - sdepth B (e.depth + 1)) + B := by ring
  omega

theorem qkey_children_mono (B : Nat) (hB : 2 ≤ B) (e : QEntry) (i m j k : Nat)
    (hjk : j < k) :
    qkey B (⟨i, childSlot B e j, e.depth + 1⟩ : QEntry) + B
      ≤ qkey B (⟨m, childSlot B e k, e.depth + 1⟩ : QEntry) := by
  show sdepth B (e.depth + 1 + 1) + B * (childSlot B e j - sdepth B (e.depth + 1)) + B
      ≤ sdepth B (e.depth + 1 + 1) + B * (childSlot B e k - sdepth B (e.depth + 1))
  rw [childSlot_eq B hB, childSlot_eq B hB]
  have hq : sdepth B (e.depth + 1) ≤ qkey B e := qkey_lb B e
  have h1 : qkey B e + j - sdepth B (e.depth + 1)
      = (qkey B e - sdepth B (e.depth + 1)) + j := by omega
  have h2 : qkey B e + k - sdepth B (e.depth + 1)
      = (qkey B e - sdepth B (e.depth + 1)) + k := by omega
  rw [h1, h2]
  have hmm := Nat.mul_le_mul_left B
    (show (qkey B e - sdepth B (e.depth + 1)) + j + 1
        ≤ (qkey B e - sdepth B (e.depth + 1)) + k from by omega)
  have hexp : B * ((qkey B e - sdepth B (e.depth + 1)) + j + 1)
      = B * ((qkey B e - sdepth B (e.depth + 1)) + j) + B := by ring
  omega

theorem pairwise_modifyIdx {α : Type _} (R : α → α → Prop) (g : α → α)
    (hg1 : ∀ p q, R p q → R (g p) q) (hg2 : ∀ p q, R p q → R p (g q)) :
    ∀ (l : List α) (i : Nat), l.Pairwise R → (modifyIdx l i g).Pairwise R := by
  intro l
  induction l with
  | nil =>
    intro i h
    exact h
  | cons x rest ih =>
    intro i h
    match i with
    | 0 =>
      rw [modifyIdx_cons_zero]
      rcases List.pairwise_cons.mp h with ⟨hx, hrest⟩
      exact List.pairwise_cons.mpr ⟨fun y hy => hg1 x y (hx y hy), hrest⟩
    | i + 1 =>
      rw [modifyIdx_cons_succ]
      rcases List.pairwise_cons.mp h with ⟨hx, hrest⟩
      refine List.pairwise_cons.mpr ⟨?_, ih i hrest⟩
      intro y hy
      rcases mem_modifyIdx rest i g y hy with h1 | ⟨z, hz, hgz⟩
      · exact hx y h1
      · subst hgz
        exact hg2 x z (hx z ((mem_iff_getElem?_some rest z).mpr ⟨i, hz⟩))

theorem mem_modifyIdx_superset (g : TPipe → TPipe)
    (hg : ∀ p : TPipe, (g p).slot = p.slot ∧ (g p).name = p.name
        ∧ (g p).left_connections = p.left_connections
        ∧ ∀ x ∈ p.right_connections, x ∈ (g p).right_connections) :
    ∀ (l : List TPipe) (i : Nat) (q : TPipe), q ∈ l →
      ∃ q' ∈ modifyIdx l i g, q'.slot = q.slot ∧ q'.name = q.name
        ∧ q'.left_connections = q.left_connections
        ∧ ∀ x ∈ q.right_connections, x ∈ q'.right_connections := by
  intro l
  induction l with
  | nil =>
    intro i q hq
    exact absurd hq (List.not_mem_nil q)
  | cons x rest ih =>
    intro i q hq
    match i with
    | 0 =>
      rw [modifyIdx_cons_zero]
      rcases List.mem_cons.mp hq with h1 | h1
      · subst h1
        exact ⟨g q, List.mem_cons_self _ _, (hg q).1, (hg q).2.1, (hg q).2.2.1,
          (hg q).2.2.2⟩
      · exact ⟨q, List.mem_cons_of_mem _ h1, rfl, rfl, rfl, fun x hx => hx⟩
    | i + 1 =>
      rw [modifyIdx_cons_succ]
      rcases List.mem_cons.mp hq with h1 | h1
      · subst h1
        exact ⟨q, List.mem_cons_self _ _, rfl, rfl, rfl, fun x hx => hx⟩
      · obtain ⟨q', hq', hprops⟩ := ih i q h1
        exact ⟨q', List.mem_cons_of_mem _ hq', hprops⟩

theorem addRight_superset (names : List NName) (l : List TPipe) (i : Nat) (q : TPipe)
    (hq : q ∈ l) :
    ∃ q' ∈ modifyIdx l i (addRight names), q'.slot = q.slot ∧ q'.name = q.name
      ∧ q'.left_connections = q.left_connections
      ∧ ∀ x ∈ q.right_connections, x ∈ q'.right_connections :=
  mem_modifyIdx_superset (addRight names)
    (fun _ => ⟨rfl, rfl, rfl, fun _ hx => List.mem_append.mpr (Or.inl hx)⟩) l i q hq

/-- Invariant run of the while loop for C5.  With the pipes list in strictly
increasing slot order, pipes named by and ranged at their slots, the root at
the head, parent and child links consistent, the queue corresponding to
pipes, the queue keys `Rlex`-ordered, and all existing slots below all queued
child ranges, the loop's output keeps the strict slot order, names, root
shape, parent links and child links. -/
theorem buildLoop_slots (B maxD : Nat) (hB : 2 ≤ B) (draws : Nat → Fin (B + 1))
    (lens rads : Nat → ℚ) :
    ∀ (fuel t : Nat) (pipes : List TPipe) (q : List QEntry),
      pipes.Pairwise (fun p p' => p.slot < p'.slot) →
      (∀ p ∈ pipes, p.name = p.slot ∧ sdepth B p.depth ≤ p.slot
          ∧ p.slot < sdepth B (p.depth + 1)) →
      (∃ rt rest, pipes = rt :: rest ∧ rt.slot = 0 ∧ rt.left_connections = []) →
      (∀ p ∈ pipes, p.slot ≠ 0 → ∃ p' ∈ pipes,
          p.left_connections = [NName.pipe p'.slot]
          ∧ NName.pipe p.slot ∈ p'.right_connections) →
      (∀ p ∈ pipes, ∀ x ∈ p.right_connections, ∃ c ∈ pipes,
          x = NName.pipe c.slot ∧ p.slot < c.slot) →
      (∀ e ∈ q, 1 ≤ e.idx ∧ ∃ p, pipes[e.idx]? = some p
          ∧ p.depth = e.depth ∧ p.slot = e.slot) →
      q.Pairwise (Rlex B) →
      (∀ p ∈ pipes, ∀ e ∈ q, p.slot < qkey B e) →
      (buildLoop B maxD draws lens rads fuel t pipes q).Pairwise
          (fun p p' => p.slot < p'.slot)
      ∧ (∀ p ∈ buildLoop B maxD draws lens rads fuel t pipes q, p.name = p.slot)
      ∧ (∃ rt rest, buildLoop B maxD draws lens rads fuel t pipes q = rt :: rest
          ∧ rt.slot = 0 ∧ rt.left_connections = [])
      ∧ (∀ p ∈ buildLoop B maxD draws lens rads fuel t pipes q, p.slot ≠ 0 →
          ∃ p' ∈ buildLoop B maxD draws lens rads fuel t pipes q,
            p.left_connections = [NName.pipe p'.slot]
            ∧ NName.pipe p.slot ∈ p'.right_connections)
      ∧ (∀ p ∈ buildLoop B maxD draws lens rads fuel t pipes q,
          ∀ x ∈ p.right_connections,
          ∃ c ∈ buildLoop B maxD draws lens rads fuel t pipes q,
            x = NName.pipe c.slot ∧ p.slot < c.slot) := by
  intro fuel
  induction fuel with
  | zero =>
    intro t pipes q hord hrng hroot hpar hchild hqg hqord hfresh
    cases q with
    | nil => exact ⟨hord, fun p hp => (hrng p hp).1, hroot, hpar, hchild⟩
    | cons e rest => exact ⟨hord, fun p hp => (hrng p hp).1, hroot, hpar, hchild⟩
  | succ n ih =>
    intro t pipes q hord hrng hroot hpar hchild hqg hqord hfresh
    cases q with
    | nil => exact ⟨hord, fun p hp => (hrng p hp).1, hroot, hpar, hchild⟩
    | cons e rest =>
      by_cases hd : maxD ≤ e.depth
      · rw [buildLoop, if_pos hd]
        exact ih t pipes rest hord hrng hroot hpar hchild
          (fun e' he' => hqg e' (List.mem_cons_of_mem e he'))
          (List.pairwise_cons.mp hqord).2
          (fun p hp e' he' => hfresh p hp e' (List.mem_cons_of_mem e he'))
      · rw [buildLoop, if_neg hd]
        obtain ⟨hidx1, pe, hpe, hped, hpes⟩ := hqg e (List.mem_cons_self e rest)
        have hpemem : pe ∈ pipes := (mem_iff_getElem?_some pipes pe).mpr ⟨e.idx, hpe⟩
        have hrng_e := hrng pe hpemem
        have he1 : sdepth B e.depth ≤ e.slot := by
          rw [← hped, ← hpes]
          exact hrng_e.2.1
        have he2 : e.slot < sdepth B (e.depth + 1) := by
          rw [← hped, ← hpes]
          exact hrng_e.2.2
        have hqb := qkey_bounds B hB e he1 he2
        have hRlex_head := (List.pairwise_cons.mp hqord).1
        have hqord_rest := (List.pairwise_cons.mp hqord).2
        have hplen : 1 ≤ pipes.length := by
          obtain ⟨rt, restP, hps, _, _⟩ := hroot
          rw [hps]
          simp
        refine ih (t + 1) _ _ ?_ ?_ ?_ ?_ ?_ ?_ ?_ ?_
        · -- strict slot order
          rw [List.pairwise_append]
          refine ⟨?_, ?_, ?_⟩
          · exact pairwise_modifyIdx _
              (addRight ((List.range (draws t).val).map
                (fun k => NName.pipe (childSlot B e k))))
              (fun _ _ h => h) (fun _ _ h => h) pipes e.idx hord
          · refine List.Pairwise.map _ ?_ (List.pairwise_lt_range _)
            intro a b hab
            show childSlot B e a < childSlot B e b
            rw [childSlot_eq B hB, childSlot_eq B hB]
            omega
          · intro p hp cpipe hc
            have hps : ∃ pOld ∈ pipes, p.slot = pOld.slot := by
              rcases mem_modifyIdx _ _ _ _ hp with h1 | ⟨z, hz, hgz⟩
              · exact ⟨p, h1, rfl⟩
              · exact ⟨z, (mem_iff_getElem?_some _ _).mpr ⟨e.idx, hz⟩, by rw [hgz]⟩
            obtain ⟨pOld, hpOldMem, hpsl⟩ := hps
            obtain ⟨k, hk, hke⟩ := List.mem_map.mp hc
            subst hke
            show p.slot < childSlot B e k
            rw [childSlot_eq B hB, hpsl]
            have := hfresh pOld hpOldMem e (List.mem_cons_self e rest)
            omega
        · -- named and ranged
          intro p hp
          rcases List.mem_append.mp hp with h1 | h1
          · rcases mem_modifyIdx _ _ _ _ h1 with h2 | ⟨z, hz, hgz⟩
            · exact hrng p h2
            · have hzmem : z ∈ pipes := (mem_iff_getElem?_some _ _).mpr ⟨e.idx, hz⟩
              have hzr := hrng z hzmem
              subst hgz
              exact hzr
          · obtain ⟨k, hk, hke⟩ := List.mem_map.mp h1
            subst hke
            have hkB : k < B := by
              have h3 : k < (draws t).val := List.mem_range.mp hk
              have h4 := (draws t).isLt
              omega
            refine ⟨rfl, ?_, ?_⟩
            · show sdepth B (e.depth + 1) ≤ childSlot B e k
              rw [childSlot_eq B hB]
              omega
            · show childSlot B e k < sdepth B (e.depth + 1 + 1)
              rw [childSlot_eq B hB]
              omega
        · -- root at the head
          obtain ⟨rt, restP, hps, hrt0, hrtl⟩ := hroot
          obtain ⟨j, hj⟩ : ∃ j, e.idx = j + 1 := ⟨e.idx - 1, by omega⟩
          refine ⟨rt, modifyIdx restP j (addRight ((List.range (draws t).val).map
              (fun k => NName.pipe (childSlot B e k))))
            ++ (List.range (draws t).val).map (fun k =>
              mkChildPipe lens rads (pipes.length + k) (childSlot B e k) e.slot
                (e.depth + 1)), ?_, hrt0, hrtl⟩
          rw [hps, hj, modifyIdx_cons_succ]
          rfl
        · -- parent links
          intro p hp hslot
          rcases List.mem_append.mp hp with h1 | h1
          · have hex : ∃ pOld ∈ pipes, p.slot = pOld.slot
                ∧ p.left_connections = pOld.left_connections := by
              rcases mem_modifyIdx _ _ _ _ h1 with h2 | ⟨z, hz, hgz⟩
              · exact ⟨p, h2, rfl, rfl⟩
              · exact ⟨z, (mem_iff_getElem?_some _ _).mpr ⟨e.idx, hz⟩,
                  by rw [hgz], by rw [hgz]⟩
            obtain ⟨pOld, hpOldMem, hps1, hpl1⟩ := hex
            obtain ⟨q', hq'mem, hq'l, hq'r⟩ := hpar pOld hpOldMem (by
              rw [← hps1]
              exact hslot)
            obtain ⟨q'', hq''mem, hq''s, _, _, hq''r⟩ :=
              addRight_superset ((List.range (draws t).val).map
                (fun k => NName.pipe (childSlot B e k))) pipes e.idx q' hq'mem
            refine ⟨q'', List.mem_append.mpr (Or.inl hq''mem), ?_, ?_⟩
            · rw [hpl1, hq'l, hq''s]
            · rw [hps1]
              exact hq''r _ hq'r
          · obtain ⟨k, hk, hke⟩ := List.mem_map.mp h1
            subst hke
            have hpar_at : (modifyIdx pipes e.idx (addRight
                ((List.range (draws t).val).map
                  (fun k => NName.pipe (childSlot B e k)))))[e.idx]?
                = some (addRight ((List.range (draws t).val).map
                  (fun k => NName.pipe (childSlot B e k))) pe) := by
              rw [getElem?_modifyIdx, if_pos rfl, hpe]
              rfl
            refine ⟨_, List.mem_append.mpr (Or.inl
              ((mem_iff_getElem?_some _ _).mpr ⟨e.idx, hpar_at⟩)), ?_, ?_⟩
            · show [NName.pipe e.slot] = [NName.pipe pe.slot]
              rw [hpes]
            · show NName.pipe (childSlot B e k)
                ∈ pe.right_connections
                  ++ (List.range (draws t).val).map (fun j => NName.pipe (childSlot B e j))
              exact List.mem_append.mpr (Or.inr (List.mem_map.mpr ⟨k, hk, rfl⟩))
        · -- child links
          intro p hp x hx
          rcases List.mem_append.mp hp with h1 | h1
          · rcases mem_modifyIdx _ _ _ _ h1 with h2 | ⟨z, hz, hgz⟩
            · obtain ⟨c0, hc0mem, hc0x, hc0lt⟩ := hchild p h2 x hx
              obtain ⟨c1, hc1mem, hc1s, _, _, _⟩ :=
                addRight_superset ((List.range (draws t).val).map
                  (fun k => NName.pipe (childSlot B e k))) pipes e.idx c0 hc0mem
              refine ⟨c1, List.mem_append.mpr (Or.inl hc1mem), ?_, ?_⟩
              · rw [hc1s]
                exact hc0x
              · rw [hc1s]
                exact hc0lt
            · rw [hpe] at hz
              cases hz
              subst hgz
              rcases List.mem_append.mp hx with hx1 | hx1
              · obtain ⟨c0, hc0mem, hc0x, hc0lt⟩ := hchild pe hpemem x hx1
                obtain ⟨c1, hc1mem, hc1s, _, _, _⟩ :=
                  addRight_superset ((List.range (draws t).val).map
                  (fun k => NName.pipe (childSlot B e k))) pipes e.idx c0 hc0mem
                refine ⟨c1, List.mem_append.mpr (Or.inl hc1mem), ?_, ?_⟩
                · rw [hc1s]
                  exact hc0x
                · show pe.slot < c1.slot
                  rw [hc1s]
                  exact hc0lt
              · obtain ⟨k, hk, hke⟩ := List.mem_map.mp hx1
                subst hke
                refine ⟨mkChildPipe lens rads (pipes.length + k) (childSlot B e k)
                    e.slot (e.depth + 1),
                  List.mem_append.mpr (Or.inr (List.mem_map.mpr ⟨k, hk, rfl⟩)), rfl, ?_⟩
                show pe.slot < childSlot B e k
                rw [childSlot_eq B hB, hpes]
                omega
          · obtain ⟨k, hk, hke⟩ := List.mem_map.mp h1
            subst hke
            simp only [mkChildPipe] at hx
            cases hx
        · -- queue/pipes correspondence
          intro e' he'
          rcases List.mem_append.mp he' with h1 | h1
          · obtain ⟨hi1, px, hpx, hpxd, hpxs⟩ := hqg e' (List.mem_cons_of_mem e h1)
            refine ⟨hi1, ?_⟩
            have hlt : e'.idx < pipes.length := by
              by_contra hcon
              rw [List.getElem?_eq_none (by omega)] at hpx
              cases hpx
            rw [List.getElem?_append, modifyIdx_length, if_pos hlt, getElem?_modifyIdx]
            by_cases hij : e.idx = e'.idx
            · rw [if_pos hij, ← hij]
              rw [hij, hpx]
              exact ⟨_, rfl, hpxd, hpxs⟩
            · rw [if_neg hij, hpx]
              exact ⟨px, rfl, hpxd, hpxs⟩
          · obtain ⟨k, hk, hke⟩ := List.mem_map.mp h1
            subst hke
            dsimp only
            refine ⟨by omega, mkChildPipe lens rads (pipes.length + k) (childSlot B e k)
              e.slot (e.depth + 1), ?_, rfl, rfl⟩
            rw [List.getElem?_append, modifyIdx_length, if_neg (by omega)]
            have hsub : pipes.length + k - pipes.length = k := by omega
            rw [hsub, List.getElem?_map, List.getElem?_range (List.mem_range.mp hk)]
            rfl
        · -- queue order
          rw [List.pairwise_append]
          refine ⟨hqord_rest, ?_, ?_⟩
          · refine List.Pairwise.map _ ?_ (List.pairwise_lt_range _)
            intro a b hab
            exact ⟨qkey_children_mono B hB e _ _ a b hab, le_rfl, Nat.le_succ _⟩
          · intro a ha b hb
            obtain ⟨k, hk, hke⟩ := List.mem_map.mp hb
            subst hke
            have hRea := hRlex_head a ha
            obtain ⟨hia, pa, hpa, hpad, hpas⟩ := hqg a (List.mem_cons_of_mem e ha)
            have hpamem : pa ∈ pipes := (mem_iff_getElem?_some pipes pa).mpr ⟨a.idx, hpa⟩
            have hrng_a := hrng pa hpamem
            have ha1 : sdepth B a.depth ≤ a.slot := by
              rw [← hpad, ← hpas]
              exact hrng_a.2.1
            have ha2 : a.slot < sdepth B (a.depth + 1) := by
              rw [← hpad, ← hpas]
              exact hrng_a.2.2
            refine ⟨?_, ?_, ?_⟩
            · by_cases hda : a.depth = e.depth
              · exact qkey_same_depth_le B hB e a _ k hda ha1 ha2
              · have hda1 : a.depth = e.depth + 1 := by
                  obtain ⟨_, hd1, hd2⟩ := hRea
                  omega
                have hafr : a.slot < qkey B e := by
                  have := hfresh pa hpamem e (List.mem_cons_self e rest)
                  omega
                exact qkey_up_depth_le B hB e a _ k hda1 ha1 hafr
            · show a.depth ≤ e.depth + 1
              obtain ⟨_, _, hd2⟩ := hRea
              exact hd2
            · show e.depth + 1 ≤ a.depth + 1
              obtain ⟨_, hd1, _⟩ := hRea
              omega
        · -- freshness
          intro p hp e' he'
          have hpslot : ∃ pOld ∈ pipes, p.slot = pOld.slot ∨ True := ⟨pe, hpemem, Or.inr trivial⟩
          rcases List.mem_append.mp hp with h1 | h1
          · have hex : ∃ pOld ∈ pipes, p.slot = pOld.slot := by
              rcases mem_modifyIdx _ _ _ _ h1 with h2 | ⟨z, hz, hgz⟩
              · exact ⟨p, h2, rfl⟩
              · exact ⟨z, (mem_iff_getElem?_some _ _).mpr ⟨e.idx, hz⟩, by rw [hgz]⟩
            obtain ⟨pOld, hpOldMem, hps1⟩ := hex
            rcases List.mem_append.mp he' with h3 | h3
            · rw [hps1]
              exact hfresh pOld hpOldMem e' (List.mem_cons_of_mem e h3)
            · obtain ⟨k, hk, hke⟩ := List.mem_map.mp h3
              subst hke
              have h4 := hfresh pOld hpOldMem e (List.mem_cons_self e rest)
              have h5 := qkey_child_ge B e (pipes.length + k) k
              rw [hps1]
              omega
          · obtain ⟨j, hj, hje⟩ := List.mem_map.mp h1
            subst hje
            have hjB : j < B := by
              have h3 : j < (draws t).val := List.mem_range.mp hj
              have h4 := (draws t).isLt
              omega
            show childSlot B e j < qkey B e'
            rcases List.mem_append.mp he' with h3 | h3
            · have hR := hRlex_head e' h3
              rw [childSlot_eq B hB]
              obtain ⟨hkey, _, _⟩ := hR
              omega
            · obtain ⟨k, hk, hke⟩ := List.mem_map.mp h3
              subst hke
              have h5 := qkey_child_ge B e (pipes.length + k) k
              rw [childSlot_eq B hB]
              omega

theorem sdepth_one (B : Nat) : sdepth B 1 = 1 := by
  show 0 * B + 1 = 1
  omega

theorem buildTree_eq_loop (B maxD : Nat) (rootDraw : Fin B) (draws : Nat → Fin (B + 1))
    (lens rads : Nat → ℚ) (flowv : ℚ) :
    buildTree B maxD rootDraw draws lens rads flowv
      = buildLoop B maxD draws lens rads
          (qMeasure B maxD (initQueue B (rootDraw.val + 1)) + 1) 0
          (initPipes B (rootDraw.val + 1) lens rads flowv)
          (initQueue B (rootDraw.val + 1)) := by
  rw [buildTree, initPipes, initQueue]

/-- The eight loop invariants hold of the state right after the first-level
loop, for any realized first-level child count `1 ≤ nb ≤ B`. -/
theorem initState_inv (B : Nat) (hB : 2 ≤ B) (nb : Nat) (_hnb1 : 1 ≤ nb) (hnbB : nb ≤ B)
    (lens rads : Nat → ℚ) (flowv : ℚ) :
    (initPipes B nb lens rads flowv).Pairwise (fun p p' => p.slot < p'.slot)
    ∧ (∀ p ∈ initPipes B nb lens rads flowv, p.name = p.slot
        ∧ sdepth B p.depth ≤ p.slot ∧ p.slot < sdepth B (p.depth + 1))
    ∧ (∃ rt rest, initPipes B nb lens rads flowv = rt :: rest
        ∧ rt.slot = 0 ∧ rt.left_connections = [])
    ∧ (∀ p ∈ initPipes B nb lens rads flowv, p.slot ≠ 0 →
        ∃ p' ∈ initPipes B nb lens rads flowv,
          p.left_connections = [NName.pipe p'.slot]
          ∧ NName.pipe p.slot ∈ p'.right_connections)
    ∧ (∀ p ∈ initPipes B nb lens rads flowv, ∀ x ∈ p.right_connections,
        ∃ c ∈ initPipes B nb lens rads flowv, x = NName.pipe c.slot ∧ p.slot < c.slot)
    ∧ (∀ e ∈ initQueue B nb, 1 ≤ e.idx
        ∧ ∃ p, (initPipes B nb lens rads flowv)[e.idx]? = some p
            ∧ p.depth = e.depth ∧ p.slot = e.slot)
    ∧ (initQueue B nb).Pairwise (Rlex B)
    ∧ (∀ p ∈ initPipes B nb lens rads flowv, ∀ e ∈ initQueue B nb,
        p.slot < qkey B e) := by
  have hone := sdepth_one B
  have htwo : sdepth B (1 + 1) = 1 + B := by
    rw [sdepth_add_pow B hB 1, hone, pow_one]
  refine ⟨?_, ?_, ?_, ?_, ?_, ?_, ?_, ?_⟩
  · refine List.pairwise_cons.mpr ⟨?_, ?_⟩
    · intro p hp
      obtain ⟨k, hk, hke⟩ := List.mem_map.mp hp
      subst hke
      show 0 < slot_id B 1 k
      rw [slot_id_eq B hB, hone]
      omega
    · refine List.Pairwise.map _ ?_ (List.pairwise_lt_range _)
      intro a b hab
      show slot_id B 1 a < slot_id B 1 b
      rw [slot_id_eq B hB, slot_id_eq B hB]
      omega
  · intro p hp
    rcases List.mem_cons.mp hp with h | h
    · subst h
      refine ⟨rfl, le_rfl, ?_⟩
      show (0 : Nat) < sdepth B 1
      rw [hone]
      omega
    · obtain ⟨k, hk, hke⟩ := List.mem_map.mp h
      subst hke
      have hkb : k < nb := List.mem_range.mp hk
      refine ⟨rfl, ?_, ?_⟩
      · show sdepth B 1 ≤ slot_id B 1 k
        rw [slot_id_eq B hB]
        omega
      · show slot_id B 1 k < sdepth B (1 + 1)
        rw [slot_id_eq B hB, hone, htwo]
        omega
  · exact ⟨_, _, rfl, rfl, rfl⟩
  · intro p hp hs
    rcases List.mem_cons.mp hp with h | h
    · subst h
      exact absurd rfl hs
    · obtain ⟨k, hk, hke⟩ := List.mem_map.mp h
      subst hke
      refine ⟨(⟨0, lens 0, rads 0, [],
          (List.range nb).map (fun j => NName.pipe (slot_id B 1 j)),
          flowv, [], [], 0, 0⟩ : TPipe), List.mem_cons_self _ _, rfl, ?_⟩
      show NName.pipe (slot_id B 1 k)
        ∈ (List.range nb).map (fun j => NName.pipe (slot_id B 1 j))
      exact List.mem_map.mpr ⟨k, hk, rfl⟩
  · intro p hp x hx
    rcases List.mem_cons.mp hp with h | h
    · subst h
      obtain ⟨k, hk, hke⟩ := List.mem_map.mp hx
      subst hke
      refine ⟨mkChildPipe lens rads (1 + k) (slot_id B 1 k) 0 1,
        List.mem_cons_of_mem _ (List.mem_map.mpr ⟨k, hk, rfl⟩), rfl, ?_⟩
      show (0 : Nat) < slot_id B 1 k
      rw [slot_id_eq B hB, hone]
      omega
    · obtain ⟨k, hk, hke⟩ := List.mem_map.mp h
      subst hke
      simp only [mkChildPipe] at hx
      cases hx
  · intro e he
    obtain ⟨k, hk, hke⟩ := List.mem_map.mp he
    subst hke
    dsimp only
    refine ⟨by omega, mkChildPipe lens rads (1 + k) (slot_id B 1 k) 0 1, ?_, rfl, rfl⟩
    have h1k : (1 : Nat) + k = k + 1 := by omega
    rw [initPipes, h1k, List.getElem?_cons_succ, List.getElem?_map,
      List.getElem?_range (List.mem_range.mp hk)]
    simp [Nat.add_comm 1 k]
  · refine List.Pairwise.map _ ?_ (List.pairwise_lt_range _)
    intro a b hab
    refine ⟨?_, le_rfl, Nat.le_succ _⟩
    show sdepth B (1 + 1) + B * (slot_id B 1 a - sdepth B 1) + B
        ≤ sdepth B (1 + 1) + B * (slot_id B 1 b - sdepth B 1)
    rw [slot_id_eq B hB, slot_id_eq B hB, hone]
    have e1 : 1 + a - 1 = a := by omega
    have e2 : 1 + b - 1 = b := by omega
    rw [e1, e2]
    have hmm := Nat.mul_le_mul_left B (show a + 1 ≤ b from hab)
    have hexp : B * (a + 1) = B * a + B := by ring
    omega
  · intro p hp e he
    obtain ⟨k, hk, hke⟩ := List.mem_map.mp he
    subst hke
    have hq : sdepth B (1 + 1) ≤ qkey B (⟨1 + k, slot_id B 1 k, 1⟩ : QEntry) :=
      qkey_lb B ⟨1 + k, slot_id B 1 k, 1⟩
    rw [htwo] at hq
    rcases List.mem_cons.mp hp with h | h
    · subst h
      show (0 : Nat) < qkey B (⟨1 + k, slot_id B 1 k, 1⟩ : QEntry)
      omega
    · obtain ⟨j, hj, hje⟩ := List.mem_map.mp h
      subst hje
      show slot_id B 1 j < qkey B (⟨1 + k, slot_id B 1 k, 1⟩ : QEntry)
      rw [slot_id_eq B hB, hone]
      have hjb : j < nb := List.mem_range.mp hj
      omega

/-- C5: in every tree grown by the breadth-first builder with `B ≥ 2`, the
assigned slots are pairwise distinct, the root heads the pipe list with slot 0
and an empty left-connection list, every non-root pipe has exactly one left
connection and it names a pipe that lists it among its right connections (its
parent), and the parent→child connection graph is acyclic. -/
theorem c5_topology (B : Nat) (hB : 2 ≤ B) (maxD : Nat) (rootDraw : Fin B)
    (draws : Nat → Fin (B + 1)) (lens rads : Nat → ℚ) (flowv : ℚ) :
    (buildTree B maxD rootDraw draws lens rads flowv).Pairwise
        (fun p p' => p.slot ≠ p'.slot)
    ∧ (∃ rt rest, buildTree B maxD rootDraw draws lens rads flowv = rt :: rest
        ∧ rt.slot = 0 ∧ rt.left_connections = [])
    ∧ (∀ p ∈ buildTree B maxD rootDraw draws lens rads flowv, p.slot ≠ 0 →
        ∃ q ∈ buildTree B maxD rootDraw draws lens rads flowv,
          p.left_connections = [NName.pipe q.name]
          ∧ NName.pipe p.name ∈ q.right_connections)
    ∧ (∀ p : TPipe, ¬ Relation.TransGen
        (fun a b => a ∈ buildTree B maxD rootDraw draws lens rads flowv
          ∧ b ∈ buildTree B maxD rootDraw draws lens rads flowv
          ∧ NName.pipe b.name ∈ a.right_connections) p p) := by
  obtain ⟨i1, i2, i3, i4, i5, i6, i7, i8⟩ := initState_inv B hB (rootDraw.val + 1)
    (by omega) (by exact rootDraw.isLt) lens rads flowv
  obtain ⟨k1, k2, k3, k4, k5⟩ := buildLoop_slots B maxD hB draws lens rads
    (qMeasure B maxD (initQueue B (rootDraw.val + 1)) + 1) 0
    (initPipes B (rootDraw.val + 1) lens rads flowv)
    (initQueue B (rootDraw.val + 1)) i1 i2 i3 i4 i5 i6 i7 i8
  rw [buildTree_eq_loop]
  have hstep : ∀ a b : TPipe,
      (a ∈ buildLoop B maxD draws lens rads
          (qMeasure B maxD (initQueue B (rootDraw.val + 1)) + 1) 0
          (initPipes B (rootDraw.val + 1) lens rads flowv)
          (initQueue B (rootDraw.val + 1))
        ∧ b ∈ buildLoop B maxD draws lens rads
          (qMeasure B maxD (initQueue B (rootDraw.val + 1)) + 1) 0
          (initPipes B (rootDraw.val + 1) lens rads flowv)
          (initQueue B (rootDraw.val + 1))
        ∧ NName.pipe b.name ∈ a.right_connections) →
      a.slot < b.slot := by
    intro a b hedge
    obtain ⟨ha, hb, hab⟩ := hedge
    obtain ⟨c, hc, hcx, hclt⟩ := k5 a ha _ hab
    have hbn : b.name = b.slot := k2 b hb
    rw [hbn] at hcx
    have hbc : b.slot = c.slot := by
      injection hcx
    rw [← hbc] at hclt
    exact hclt
  refine ⟨k1.imp (fun h => Nat.ne_of_lt h), k3, ?_, ?_⟩
  · intro p hp hps
    obtain ⟨q', hq', hl, hr⟩ := k4 p hp hps
    refine ⟨q', hq', ?_, ?_⟩
    · rw [hl, k2 q' hq']
    · rw [k2 p hp]
      exact hr
  · intro p hcyc
    have hmono : ∀ a b : TPipe, Relation.TransGen
        (fun a b => a ∈ buildLoop B maxD draws lens rads
            (qMeasure B maxD (initQueue B (rootDraw.val + 1)) + 1) 0
            (initPipes B (rootDraw.val + 1) lens rads flowv)
            (initQueue B (rootDraw.val + 1))
          ∧ b ∈ buildLoop B maxD draws lens rads
            (qMeasure B maxD (initQueue B (rootDraw.val + 1)) + 1) 0
            (initPipes B (rootDraw.val + 1) lens rads flowv)
            (initQueue B (rootDraw.val + 1))
          ∧ NName.pipe b.name ∈ a.right_connections) a b →
        a.slot < b.slot := by
      intro a b h
      induction h with
      | single h1 => exact hstep _ _ h1
      | tail h1 h2 ih => exact lt_trans ih (hstep _ _ h2)
    exact absurd (hmono p p hcyc) (lt_irrefl _)

/-- Witness for `c5_topology` at `B = 2`, max depth 1 and concrete draw
streams. -/
theorem c5_topology_witness :
    2 ≤ 2
    ∧ ((buildTree 2 1 (0 : Fin 2) (fun _ => (0 : Fin 3)) (fun _ => 1) (fun _ => 1)
          7).Pairwise (fun p p' => p.slot ≠ p'.slot)
      ∧ (∃ rt rest,
          buildTree 2 1 (0 : Fin 2) (fun _ => (0 : Fin 3)) (fun _ => 1) (fun _ => 1) 7
            = rt :: rest ∧ rt.slot = 0 ∧ rt.left_connections = [])
      ∧ (∀ p ∈ buildTree 2 1 (0 : Fin 2) (fun _ => (0 : Fin 3)) (fun _ => 1) (fun _ => 1) 7,
            p.slot ≠ 0 →
          ∃ q ∈ buildTree 2 1 (0 : Fin 2) (fun _ => (0 : Fin 3)) (fun _ => 1) (fun _ => 1) 7,
            p.left_connections = [NName.pipe q.name]
            ∧ NName.pipe p.name ∈ q.right_connections)
      ∧ (∀ p : TPipe, ¬ Relation.TransGen
          (fun a b => a ∈ buildTree 2 1 (0 : Fin 2) (fun _ => (0 : Fin 3)) (fun _ => 1)
              (fun _ => 1) 7
            ∧ b ∈ buildTree 2 1 (0 : Fin 2) (fun _ => (0 : Fin 3)) (fun _ => 1)
              (fun _ => 1) 7
            ∧ NName.pipe b.name ∈ a.right_connections) p p)) :=
  ⟨by decide, c5_topology 2 (by decide) 1 (0 : Fin 2) (fun _ => (0 : Fin 3)) (fun _ => 1)
    (fun _ => 1) 7⟩

theorem children_mem (n : Nat) (par : Nat → Nat) (p c : Nat)
    (h : c ∈ childrenOf n par p) : c < n ∧ 1 ≤ c ∧ par c = p := by
  rw [childrenOf] at h
  have h2 := List.mem_filter.mp h
  have h3 := of_decide_eq_true h2.2
  exact ⟨List.mem_range.mp h2.1, h3.1, h3.2⟩

theorem mem_children (n : Nat) (par : Nat → Nat) (p c : Nat)
    (h1 : c < n) (h2 : 1 ≤ c) (h3 : par c = p) : c ∈ childrenOf n par p := by
  rw [childrenOf]
  exact List.mem_filter.mpr ⟨List.mem_range.mpr h1, decide_eq_true ⟨h2, h3⟩⟩

theorem parIter_add (par : Nat → Nat) (x : Nat) :
    ∀ (y i : Nat), parIter par (x + y) i = parIter par x (parIter par y i) := by
  intro y
  induction y with
  | zero => intro i; rfl
  | succ y ih =>
    intro i
    show parIter par (x + y) (par i) = parIter par x (parIter par y (par i))
    exact ih (par i)

theorem inSub_refl (par : Nat → Nat) (j : Nat) : inSub par j j :=
  ⟨0, rfl, fun m hm => absurd hm (Nat.not_lt_zero m)⟩

theorem inSub_step (par : Nat → Nat) (j i : Nat) (h : inSub par j i) (hne : i ≠ j) :
    1 ≤ i ∧ inSub par j (par i) := by
  obtain ⟨k, hk, hm⟩ := h
  cases k with
  | zero => exact absurd hk hne
  | succ k =>
    have h1 : 1 ≤ i := hm 0 (Nat.succ_pos k)
    refine ⟨h1, k, hk, ?_⟩
    intro m hmk
    exact hm (m + 1) (by omega)

theorem inSub_of_par (par : Nat → Nat) (j i : Nat) (hi : 1 ≤ i)
    (h : inSub par j (par i)) : inSub par j i := by
  obtain ⟨k, hk, hm⟩ := h
  refine ⟨k + 1, hk, ?_⟩
  intro m hmk
  cases m with
  | zero => exact hi
  | succ m => exact hm m (by omega)

theorem inSub_of_child (n : Nat) (par : Nat → Nat) (p c : Nat)
    (h : c ∈ childrenOf n par p) : inSub par p c := by
  have h3 := children_mem n par p c h
  refine ⟨1, h3.2.2, ?_⟩
  intro m hm
  cases m with
  | zero => exact h3.2.1
  | succ m => exact absurd hm (by omega)

theorem inSub_trans (par : Nat → Nat) (a b c : Nat)
    (h1 : inSub par a b) (h2 : inSub par b c) : inSub par a c := by
  obtain ⟨k1, hk1, hm1⟩ := h1
  obtain ⟨k2, hk2, hm2⟩ := h2
  refine ⟨k1 + k2, ?_, ?_⟩
  · rw [parIter_add, hk2, hk1]
  · intro m hm
    by_cases hmk : m < k2
    · exact hm2 m hmk
    · obtain ⟨m', rfl⟩ : ∃ m', m = m' + k2 := ⟨m - k2, by omega⟩
      rw [parIter_add, hk2]
      exact hm1 m' (by omega)

theorem inSub_comp (par : Nat → Nat) (a b i : Nat)
    (h1 : inSub par a i) (h2 : inSub par b i) : inSub par a b ∨ inSub par b a := by
  obtain ⟨k1, hk1, hm1⟩ := h1
  obtain ⟨k2, hk2, hm2⟩ := h2
  rcases Nat.le_total k1 k2 with h | h
  · right
    refine ⟨k2 - k1, ?_, ?_⟩
    · rw [← hk1, ← parIter_add, show k2 - k1 + k1 = k2 from by omega, hk2]
    · intro m hm
      rw [← hk1, ← parIter_add]
      exact hm2 (m + k1) (by omega)
  · left
    refine ⟨k1 - k2, ?_, ?_⟩
    · rw [← hk2, ← parIter_add, show k1 - k2 + k2 = k1 from by omega, hk1]
    · intro m hm
      rw [← hk2, ← parIter_add]
      exact hm1 (m + k2) (by omega)

theorem parIter_le (par : Nat → Nat) (hpar : ∀ x, 1 ≤ x → par x < x) :
    ∀ (k i : Nat), (∀ m, m < k → 1 ≤ parIter par m i) → parIter par k i ≤ i := by
  intro k
  induction k with
  | zero => intro i _; exact le_rfl
  | succ k ih =>
    intro i hm
    have h1 : 1 ≤ i := hm 0 (by omega)
    have h2 : par i < i := hpar i h1
    have h3 := ih (par i) (fun m hmk => hm (m + 1) (by omega))
    show parIter par k (par i) ≤ i
    omega

theorem inSub_le (par : Nat → Nat) (hpar : ∀ x, 1 ≤ x → par x < x) (j i : Nat)
    (h : inSub par j i) : j ≤ i := by
  obtain ⟨k, hk, hm⟩ := h
  rw [← hk]
  exact parIter_le par hpar k i hm

theorem inSub_root (par : Nat → Nat) (hpar : ∀ x, 1 ≤ x → par x < x) :
    ∀ i, inSub par 0 i := by
  intro i
  induction i using Nat.strong_induction_on with
  | _ i ih =>
    by_cases h0 : i = 0
    · subst h0
      exact inSub_refl par 0
    · have h1 : 1 ≤ i := by omega
      exact inSub_of_par par 0 i h1 (ih (par i) (hpar i h1))

theorem inSub_strict_child (par : Nat → Nat) (hpar : ∀ x, 1 ≤ x → par x < x)
    (n j : Nat) :
    ∀ i, i < n → inSub par j i → i ≠ j →
      ∃ c ∈ childrenOf n par j, inSub par c i := by
  intro i
  induction i using Nat.strong_induction_on with
  | _ i ih =>
    intro hin hsub hne
    obtain ⟨h1, hsubp⟩ := inSub_step par j i hsub hne
    by_cases hpj : par i = j
    · exact ⟨i, mem_children n par j i hin h1 hpj, inSub_refl par i⟩
    · have hplt : par i < i := hpar i h1
      obtain ⟨c, hc, hcs⟩ := ih (par i) hplt (by omega) hsubp hpj
      exact ⟨c, hc, inSub_of_par par c i h1 hcs⟩

theorem assignChildren_notmem (radius : Nat → ℚ) (tr : ℚ) :
    ∀ (cs : List Nat) (f : Nat → ℚ) (p x : Nat), x ∉ cs →
      assignChildren radius tr f p cs x = f x := by
  intro cs
  induction cs with
  | nil => intro f p x _; rfl
  | cons c cs' ih =>
    intro f p x hx
    have hxc : x ≠ c := fun he => hx (he ▸ List.mem_cons_self c cs')
    have hxcs : x ∉ cs' := fun hmem => hx (List.mem_cons_of_mem c hmem)
    rw [assignChildren, ih _ p x hxcs]
    show (if x = c then (if 0 < tr then f p * (radius c / tr) else 0) else f x) = f x
    rw [if_neg hxc]

theorem assignChildren_mem (radius : Nat → ℚ) (tr : ℚ) :
    ∀ (cs : List Nat) (f : Nat → ℚ) (p c : Nat), c ∈ cs → cs.Nodup → p ∉ cs →
      assignChildren radius tr f p cs c
        = if 0 < tr then f p * (radius c / tr) else 0 := by
  intro cs
  induction cs with
  | nil => intro f p c hc _ _; exact absurd hc (List.not_mem_nil c)
  | cons c0 cs' ih =>
    intro f p c hc hnd hp
    have hpc0 : p ≠ c0 := fun he => hp (he ▸ List.mem_cons_self c0 cs')
    have hpcs' : p ∉ cs' := fun hmem => hp (List.mem_cons_of_mem c0 hmem)
    rcases List.mem_cons.mp hc with h1 | h1
    · subst h1
      have hccs' : c ∉ cs' := (List.nodup_cons.mp hnd).1
      rw [assignChildren, assignChildren_notmem radius tr cs' _ p c hccs']
      show (if c = c then (if 0 < tr then f p * (radius c / tr) else 0) else f c)
          = if 0 < tr then f p * (radius c / tr) else 0
      rw [if_pos rfl]
    · rw [assignChildren, ih _ p c h1 (List.nodup_cons.mp hnd).2 hpcs']
      show (if 0 < tr then
          (if p = c0 then (if 0 < tr then f p * (radius c0 / tr) else 0) else f p)
            * (radius c / tr)
        else 0)
        = if 0 < tr then f p * (radius c / tr) else 0
      rw [if_neg hpc0]

theorem sum_pow3_lt (n : Nat) :
    ∀ (l : List Nat) (m : Nat), l.Pairwise (· < ·) →
      (∀ c ∈ l, m ≤ c) → (∀ c ∈ l, c < n) →
      2 * (l.map (fun c => 3 ^ (n - c))).sum < 3 ^ (n - m + 1) := by
  intro l
  induction l with
  | nil =>
    intro m _ _ _
    simp
  | cons c l' ihl =>
    intro m hpw hge hlt
    rcases List.pairwise_cons.mp hpw with ⟨hc, hpw'⟩
    have h1 := ihl (c + 1) hpw' (fun x hx => hc x hx)
      (fun x hx => hlt x (List.mem_cons_of_mem c hx))
    have hcn : c < n := hlt c (List.mem_cons_self c l')
    have hcm : m ≤ c := hge c (List.mem_cons_self c l')
    have he : n - (c + 1) + 1 = n - c := by omega
    rw [he] at h1
    simp only [List.map_cons, List.sum_cons]
    have h2 : (3 : Nat) ^ (n - c + 1) = 3 ^ (n - c) * 3 := pow_succ 3 (n - c)
    have h3 : (3 : Nat) ^ (n - c + 1) ≤ 3 ^ (n - m + 1) :=
      Nat.pow_le_pow_right (by omega) (by omega)
    omega

theorem flowOfAux_stable (n : Nat) (par : Nat → Nat) (radius : Nat → ℚ) (fv : ℚ)
    (hpar : ∀ x, 1 ≤ x → par x < x) :
    ∀ i fuel fuel', i < fuel → i < fuel' →
      flowOfAux n par radius fv fuel i = flowOfAux n par radius fv fuel' i := by
  intro i
  induction i using Nat.strong_induction_on with
  | _ i ih =>
    intro fuel fuel' h1 h2
    cases fuel with
    | zero => omega
    | succ fl =>
      cases fuel' with
      | zero => omega
      | succ fl' =>
        cases i with
        | zero => rfl
        | succ j =>
          show (if 0 < trOf n par radius (par (j + 1)) then
              flowOfAux n par radius fv fl (par (j + 1))
                * (radius (j + 1) / trOf n par radius (par (j + 1)))
            else 0)
            = (if 0 < trOf n par radius (par (j + 1)) then
              flowOfAux n par radius fv fl' (par (j + 1))
                * (radius (j + 1) / trOf n par radius (par (j + 1)))
            else 0)
          have hpj : par (j + 1) < j + 1 := hpar (j + 1) (by omega)
          rw [ih (par (j + 1)) hpj fl fl' (by omega) (by omega)]

theorem flowOf_succ (n : Nat) (par : Nat → Nat) (radius : Nat → ℚ) (fv : ℚ)
    (hpar : ∀ x, 1 ≤ x → par x < x) (c : Nat) (hc : 1 ≤ c) :
    flowOf n par radius fv c
      = if 0 < trOf n par radius (par c) then
          flowOf n par radius fv (par c) * (radius c / trOf n par radius (par c))
        else 0 := by
  obtain ⟨j, rfl⟩ : ∃ j, c = j + 1 := ⟨c - 1, by omega⟩
  show (if 0 < trOf n par radius (par (j + 1)) then
      flowOfAux n par radius fv (j + 1) (par (j + 1))
        * (radius (j + 1) / trOf n par radius (par (j + 1)))
    else 0) = _
  have hpj : par (j + 1) < j + 1 := hpar (j + 1) (by omega)
  rw [flowOfAux_stable n par radius fv hpar (par (j + 1)) (j + 1) (par (j + 1) + 1)
    hpj (by omega)]
  rfl

/-- Correctness of the BFS flow loop: given any `F` satisfying the
proportional recurrence and a queue of pairwise-incomparable nodes whose
current flows already agree with `F`, after the loop every node below some
queued node carries `F`, and every node outside all queued strict subtrees is
untouched. -/
theorem flowLoop_correct (n : Nat) (par : Nat → Nat) (radius : Nat → ℚ)
    (hpar : ∀ x, 1 ≤ x → par x < x) (F : Nat → ℚ)
    (hF : ∀ c, 1 ≤ c → c < n →
      F c = if 0 < trOf n par radius (par c) then
          F (par c) * (radius c / trOf n par radius (par c))
        else 0) :
    ∀ (fuel : Nat) (f : Nat → ℚ) (q : List Nat),
      (q.map (fun j => 3 ^ (n - j))).sum ≤ fuel →
      (∀ j ∈ q, j < n) →
      (∀ j ∈ q, f j = F j) →
      q.Pairwise (fun a b => ¬ inSub par a b ∧ ¬ inSub par b a) →
      (∀ i, i < n → (∃ j ∈ q, inSub par j i) →
        flowLoop n par radius fuel f q i = F i)
      ∧ (∀ i, (∀ j ∈ q, ¬ (inSub par j i ∧ i ≠ j)) →
        flowLoop n par radius fuel f q i = f i) := by
  intro fuel
  induction fuel with
  | zero =>
    intro f q hm hlt hval hpw
    cases q with
    | nil =>
      refine ⟨?_, ?_⟩
      · intro i _ hex
        obtain ⟨j, hj, _⟩ := hex
        exact absurd hj (List.not_mem_nil j)
      · intro i _
        rfl
    | cons p rest =>
      exfalso
      have h1 : 1 ≤ 3 ^ (n - p) := Nat.one_le_pow _ _ (by omega)
      simp only [List.map_cons, List.sum_cons] at hm
      omega
  | succ m ihm =>
    intro f q hm hlt hval hpw
    cases q with
    | nil =>
      refine ⟨?_, ?_⟩
      · intro i _ hex
        obtain ⟨j, hj, _⟩ := hex
        exact absurd hj (List.not_mem_nil j)
      · intro i _
        rfl
    | cons p rest =>
      have hple : p < n := hlt p (List.mem_cons_self p rest)
      simp only [List.map_cons, List.sum_cons] at hm
      have hpw1 := (List.pairwise_cons.mp hpw).1
      have hpw' := (List.pairwise_cons.mp hpw).2
      by_cases hcs : childrenOf n par p = []
      · rw [flowLoop, if_pos hcs]
        have hmrest : (rest.map (fun j => 3 ^ (n - j))).sum ≤ m := by
          have h1 : 1 ≤ 3 ^ (n - p) := Nat.one_le_pow _ _ (by omega)
          omega
        obtain ⟨ihA, ihB⟩ := ihm f rest hmrest
          (fun j hj => hlt j (List.mem_cons_of_mem p hj))
          (fun j hj => hval j (List.mem_cons_of_mem p hj)) hpw'
        refine ⟨?_, ?_⟩
        · intro i hin hex
          obtain ⟨j, hj, hsub⟩ := hex
          rcases List.mem_cons.mp hj with h1 | h1
          · subst h1
            by_cases hij : i = j
            · subst hij
              have hframe : ∀ x ∈ rest, ¬ (inSub par x i ∧ i ≠ x) := by
                intro x hx
                rintro ⟨hxsub, _⟩
                exact (hpw1 x hx).2 hxsub
              rw [ihB i hframe]
              exact hval i (List.mem_cons_self _ _)
            · exfalso
              obtain ⟨c, hcmem, _⟩ := inSub_strict_child par hpar n j i hin hsub hij
              rw [hcs] at hcmem
              exact absurd hcmem (List.not_mem_nil c)
          · exact ihA i hin ⟨j, h1, hsub⟩
        · intro i hni
          exact ihB i (fun x hx => hni x (List.mem_cons_of_mem p hx))
      · rw [flowLoop, if_neg hcs]
        have hchgt : ∀ c ∈ childrenOf n par p, p < c := by
          intro c hc
          have h3 := children_mem n par p c hc
          have h4 := hpar c h3.2.1
          omega
        have hchnodup : (childrenOf n par p).Nodup := by
          rw [childrenOf]
          exact List.Nodup.filter _ (List.nodup_range n)
        have hpnotin : p ∉ childrenOf n par p := by
          intro hmem
          exact absurd (hchgt p hmem) (lt_irrefl p)
        have hchpw : (childrenOf n par p).Pairwise (· < ·) := by
          rw [childrenOf]
          exact List.Pairwise.filter _ (List.pairwise_lt_range n)
        have hchsum :
            ((childrenOf n par p).map (fun c => 3 ^ (n - c))).sum < 3 ^ (n - p) := by
          have h1 := sum_pow3_lt n (childrenOf n par p) (p + 1) hchpw
            (fun c hc => hchgt c hc)
            (fun c hc => (children_mem n par p c hc).1)
          have he : n - (p + 1) + 1 = n - p := by omega
          rw [he] at h1
          omega
        have hmq' : ((rest ++ childrenOf n par p).map (fun j => 3 ^ (n - j))).sum
            ≤ m := by
          rw [List.map_append, List.sum_append]
          omega
        have hltq' : ∀ j ∈ rest ++ childrenOf n par p, j < n := by
          intro j hj
          rcases List.mem_append.mp hj with h1 | h1
          · exact hlt j (List.mem_cons_of_mem p h1)
          · exact (children_mem n par p j h1).1
        have hvalq' : ∀ j ∈ rest ++ childrenOf n par p,
            assignChildren radius (trOf n par radius p) f p (childrenOf n par p) j
              = F j := by
          intro j hj
          rcases List.mem_append.mp hj with h1 | h1
          · rw [assignChildren_notmem]
            · exact hval j (List.mem_cons_of_mem p h1)
            · intro hmem
              exact (hpw1 j h1).1 (inSub_of_child n par p j hmem)
          · rw [assignChildren_mem radius _ _ _ _ _ h1 hchnodup hpnotin]
            have h3 := children_mem n par p j h1
            rw [hF j h3.2.1 h3.1, h3.2.2, hval p (List.mem_cons_self p rest)]
        have hpwq' : (rest ++ childrenOf n par p).Pairwise
            (fun a b => ¬ inSub par a b ∧ ¬ inSub par b a) := by
          rw [List.pairwise_append]
          refine ⟨hpw', ?_, ?_⟩
          · refine List.Pairwise.imp_of_mem ?_ hchpw
            intro a b ha hb hab
            constructor
            · intro hsub
              have hne : b ≠ a := by omega
              obtain ⟨_, hsubp⟩ := inSub_step par a b hsub hne
              rw [(children_mem n par p b hb).2.2] at hsubp
              have h4 := inSub_le par hpar a p hsubp
              have h5 := hchgt a ha
              omega
            · intro hsub
              have h4 := inSub_le par hpar b a hsub
              omega
          · intro a ha c hc
            have hsubpc : inSub par p c := inSub_of_child n par p c hc
            constructor
            · intro hac
              rcases inSub_comp par a p c hac hsubpc with h1 | h1
              · exact (hpw1 a ha).2 h1
              · exact (hpw1 a ha).1 h1
            · intro hca
              exact (hpw1 a ha).1 (inSub_trans par p c a hsubpc hca)
        obtain ⟨ihA, ihB⟩ := ihm _ _ hmq' hltq' hvalq' hpwq'
        refine ⟨?_, ?_⟩
        · intro i hin hex
          obtain ⟨j, hj, hsub⟩ := hex
          rcases List.mem_cons.mp hj with h1 | h1
          · subst h1
            by_cases hij : i = j
            · subst hij
              have hframe : ∀ x ∈ rest ++ childrenOf n par i,
                  ¬ (inSub par x i ∧ i ≠ x) := by
                intro x hx
                rintro ⟨hxsub, _⟩
                rcases List.mem_append.mp hx with h2 | h2
                · exact (hpw1 x h2).2 hxsub
                · have h4 := inSub_le par hpar x i hxsub
                  have h5 := hchgt x h2
                  omega
              rw [ihB i hframe, assignChildren_notmem radius _ _ _ _ _ hpnotin]
              exact hval i (List.mem_cons_self _ _)
            · obtain ⟨c, hcmem, hcsub⟩ := inSub_strict_child par hpar n j i hin hsub hij
              exact ihA i hin ⟨c, List.mem_append.mpr (Or.inr hcmem), hcsub⟩
          · exact ihA i hin ⟨j, List.mem_append.mpr (Or.inl h1), hsub⟩
        · intro i hni
          have hip : ¬ (inSub par p i ∧ i ≠ p) := hni p (List.mem_cons_self p rest)
          have hinotch : i ∉ childrenOf n par p := by
            intro hmem
            have hgt := hchgt i hmem
            exact hip ⟨inSub_of_child n par p i hmem, by omega⟩
          have hframe : ∀ x ∈ rest ++ childrenOf n par p,
              ¬ (inSub par x i ∧ i ≠ x) := by
            intro x hx
            rintro ⟨hxsub, hxne⟩
            rcases List.mem_append.mp hx with h2 | h2
            · exact hni x (List.mem_cons_of_mem p h2) ⟨hxsub, hxne⟩
            · have hne : i ≠ p := by
                intro he
                subst he
                have h4 := inSub_le par hpar x i hxsub
                have h5 := hchgt x h2
                omega
              exact hip ⟨inSub_trans par p x i (inSub_of_child n par p x h2) hxsub, hne⟩
          rw [ihB i hframe]
          exact assignChildren_notmem radius _ _ _ _ _ hinotch

/-- C7: the proportional flow policy.  For every node `p` with at least one
child in a tree drawn by the generator (every non-root position's parent has a
smaller position): when the children's radius total is positive, each child's
final flow is the parent's final flow times its radius share, and the
children's flows sum exactly to the parent's flow; when the radius total is
zero, every child is assigned flow 0 (the conditional on line 146 skips the
division, so no error is raised). -/
theorem c7_flow (n : Nat) (par : Nat → Nat) (radius : Nat → ℚ) (fv : ℚ)
    (hn : 1 ≤ n) (hpar : ∀ i, 1 ≤ i → par i < i) (p : Nat) (hp : p < n)
    (_hchild : childrenOf n par p ≠ []) :
    (0 < trOf n par radius p →
      (∀ c ∈ childrenOf n par p,
        distributeFlows n par radius fv c
          = distributeFlows n par radius fv p * (radius c / trOf n par radius p))
      ∧ ((childrenOf n par p).map (distributeFlows n par radius fv)).sum
          = distributeFlows n par radius fv p)
    ∧ (trOf n par radius p = 0 →
        ∀ c ∈ childrenOf n par p, distributeFlows n par radius fv c = 0) := by
  have hall : ∀ i, i < n →
      distributeFlows n par radius fv i = flowOf n par radius fv i := by
    intro i hin
    refine (flowLoop_correct n par radius hpar (flowOf n par radius fv)
      (fun c hc1 hc2 => flowOf_succ n par radius fv hpar c hc1) (3 ^ n)
      (fun _ => fv) [0] ?_ ?_ ?_ ?_).1 i hin
      ⟨0, List.mem_singleton.mpr rfl, inSub_root par hpar i⟩
    · simp
    · intro j hj
      rw [List.mem_singleton] at hj
      subst hj
      omega
    · intro j hj
      rw [List.mem_singleton] at hj
      subst hj
      rfl
    · exact List.pairwise_singleton _ _
  have hchval : ∀ c ∈ childrenOf n par p,
      distributeFlows n par radius fv c
        = if 0 < trOf n par radius p then
            distributeFlows n par radius fv p * (radius c / trOf n par radius p)
          else 0 := by
    intro c hc
    have h3 := children_mem n par p c hc
    rw [hall c h3.1, flowOf_succ n par radius fv hpar c h3.2.1, h3.2.2, ← hall p hp]
  refine ⟨?_, ?_⟩
  · intro htr
    have hceq : ∀ c ∈ childrenOf n par p,
        distributeFlows n par radius fv c
          = distributeFlows n par radius fv p * (radius c / trOf n par radius p) := by
      intro c hc
      rw [hchval c hc, if_pos htr]
    refine ⟨hceq, ?_⟩
    have htr0 : trOf n par radius p ≠ 0 := ne_of_gt htr
    rw [List.map_congr_left hceq]
    rw [List.map_congr_left (fun c _ =>
      show distributeFlows n par radius fv p * (radius c / trOf n par radius p)
          = distributeFlows n par radius fv p / trOf n par radius p * radius c from
        by ring)]
    rw [List.sum_map_mul_left]
    rw [show ((childrenOf n par p).map radius).sum = trOf n par radius p from rfl]
    exact div_mul_cancel₀ _ htr0
  · intro htr c hc
    rw [hchval c hc, if_neg (by rw [htr]; exact lt_irrefl 0)]

/-- Witness for `c7_flow`: three pipes in a chain rooted at position 0
(parent map `i - 1`), unit radii and root flow 5. -/
theorem c7_flow_witness :
    (1 : Nat) ≤ 3
    ∧ (∀ i : Nat, 1 ≤ i → i - 1 < i)
    ∧ childrenOf 3 (fun i => i - 1) 0 ≠ []
    ∧ ((0 < trOf 3 (fun i => i - 1) (fun _ => (1 : ℚ)) 0 →
        (∀ c ∈ childrenOf 3 (fun i => i - 1) 0,
          distributeFlows 3 (fun i => i - 1) (fun _ => (1 : ℚ)) 5 c
            = distributeFlows 3 (fun i => i - 1) (fun _ => (1 : ℚ)) 5 0
              * ((1 : ℚ) / trOf 3 (fun i => i - 1) (fun _ => (1 : ℚ)) 0))
        ∧ ((childrenOf 3 (fun i => i - 1) 0).map
            (distributeFlows 3 (fun i => i - 1) (fun _ => (1 : ℚ)) 5)).sum
            = distributeFlows 3 (fun i => i - 1) (fun _ => (1 : ℚ)) 5 0)
      ∧ (trOf 3 (fun i => i - 1) (fun _ => (1 : ℚ)) 0 = 0 →
          ∀ c ∈ childrenOf 3 (fun i => i - 1) 0,
            distributeFlows 3 (fun i => i - 1) (fun _ => (1 : ℚ)) 5 c = 0)) :=
  ⟨by omega, fun i hi => by omega, by decide,
    c7_flow 3 (fun i => i - 1) (fun _ => (1 : ℚ)) 5 (by omega)
      (fun i hi => show i - 1 < i by omega) 0 (by omega) (by decide)⟩

end MolSim

